import Mathlib

/-!
Verification development for the compound-graph SVG renderer
(`src/svg-renderer.js` and its sibling revision, file `part_000`).

The embedding models the renderer's graph state and the state-manipulating
algorithms: the collapse/expand manager, the delta (diff) reconciliation for
nodes and edges, the ancestor trace walk, and the viewport/culling
calculator.  Layout geometry (`x`, `y`, `width`, `height`, `points`) is not
part of any claim ("up to layout geometry") and is omitted from the data
model; everything else follows the JS source line by line.

The tree utilities `traverse`/`flatten` are imported by the renderer from
`./utils`, whose file is not part of the sources.  Modelled from the spec:
"Tree Utilities (traverse/flatten a nested graph) — pure functions over the
graph tree"; a traversal visits the root object first and then each node
before its own children and its later siblings (pre-order), reading the
current (possibly just mutated) children list, which matches the spec's
collapse steps 3-4 where the children are replaced by an empty sequence
before the edge-lists of the graph are walked.
-/

/-- An edge of the compound graph: identifier plus source and target node
ids.  The `points` geometry is layout data and is omitted. -/
structure Edge where
  id : String
  source : String
  target : String
deriving DecidableEq, Repr

/-- A forest of sibling nodes of the compound graph.
`cons id children edges collapsed rest` is the sibling sequence whose first
node has the given id, child forest, local edge-list and collapsed flag,
followed by the remaining siblings.  The JS `collapsed` field is `undefined`
until first assigned; both `undefined` and `false` encode "not collapsed"
and are modelled as `false`. -/
inductive Forest where
  | nil : Forest
  | cons (id : String) (children : Forest) (edges : List Edge) (collapsed : Bool) (rest : Forest) : Forest
deriving DecidableEq, Repr

/-- The root layout object: the top-level node forest and the root
edge-list (`layout.nodes`, `layout.edges`). -/
structure Graph where
  nodes : Forest
  edges : List Edge
deriving DecidableEq, Repr

/-- All node ids of a forest, in pre-order (a node before its children,
children before later siblings). -/
def Forest.allIds : Forest → List String
  | .nil => []
  | .cons i c _ _ r => i :: (c.allIds ++ r.allIds)

/-- All edges held by edge-lists of the forest's nodes, in pre-order. -/
def Forest.allEdges : Forest → List Edge
  | .nil => []
  | .cons _ c es _ r => es ++ (c.allEdges ++ r.allEdges)

/-- The ids of the top-level siblings of a forest, in order. -/
def Forest.topIds : Forest → List String
  | .nil => []
  | .cons i _ _ _ r => i :: r.topIds

/-- The components (children, edge-list, collapsed flag) of the first node
in pre-order carrying the given id; `none` when no node has the id.  This
is how a D3 selection `selectAll('.node').filter(d => d.id === nodeId)`
resolves `datum()`: document order is pre-order. -/
def Forest.find? (nid : String) : Forest → Option (Forest × List Edge × Bool)
  | .nil => none
  | .cons i c es col r =>
    if i = nid then some (c, es, col)
    else
      match c.find? nid with
      | some x => some x
      | none => r.find? nid

/-- The children of the first top-level sibling carrying the given id. -/
def Forest.findTop (nid : String) : Forest → Option Forest
  | .nil => none
  | .cons i c _ _ r => if i = nid then some c else r.findTop nid

/-- The top-level siblings of a forest as (id, children) pairs. -/
def Forest.topSibs : Forest → List (String × Forest)
  | .nil => []
  | .cons i c _ _ r => (i, c) :: r.topSibs

/-- Association-list lookup, modelling a JS object keyed by strings. -/
def lookupA {α : Type} (k : String) : List (String × α) → Option α
  | [] => none
  | (k', v) :: r => if k' = k then some v else lookupA k r

/-- Association-list assignment (`obj[k] = v`): replaces the value when the
key is present, appends otherwise. -/
def setA {α : Type} (k : String) (v : α) : List (String × α) → List (String × α)
  | [] => [(k, v)]
  | (k', v') :: r => if k' = k then (k, v) :: r else (k', v') :: setA k v r

/-- Association-list key deletion (`delete obj[k]`). -/
def eraseA {α : Type} (k : String) (l : List (String × α)) : List (String × α) :=
  l.filter (fun p => p.1 ≠ k)

/-! ## Diff engine (`renderEdgesDelta` / `renderNodesDelta`)

The deltas are produced by D3 keyed data joins (key `d => d.id`):
elements present only in the new data are `new`, elements present in both
are `updated`, bound elements with no new datum are `removed`.  Node joins
operate per sibling group, edge joins operate on the flattened edge list of
all nesting levels (`traverse` concatenating every `node.edges`, the root's
list first). -/

/-- The flattened list of every edge at every nesting level, in traversal
order (root edge-list first), as collected by `renderEdgesDelta`. -/
def Graph.flatEdges (G : Graph) : List Edge := G.edges ++ G.nodes.allEdges

/-- Outcome of one reconciliation pass: ids classified added ("new"),
removed, and updated. -/
structure Delta where
  added : List String
  removedIds : List String
  updated : List String
deriving DecidableEq, Repr

/-- Concatenation of two delta classifications. -/
def dapp (a b : Delta) : Delta :=
  ⟨a.added ++ b.added, a.removedIds ++ b.removedIds, a.updated ++ b.updated⟩

/-- The edge delta of `renderEdgesDelta`: a keyed join of the next
snapshot's flattened edges against the flattened edges bound by the
previous render. -/
def edgesDelta (prev next : Graph) : Delta :=
  let prevIds := prev.flatEdges.map (fun e => e.id)
  let nextIds := next.flatEdges.map (fun e => e.id)
  ⟨(next.flatEdges.filter (fun e => !prevIds.contains e.id)).map (fun e => e.id),
   prevIds.filter (fun i => !nextIds.contains i),
   (next.flatEdges.filter (fun e => prevIds.contains e.id)).map (fun e => e.id)⟩

/-- The recursive part of `renderNodesDelta`'s `_recursiveBuild`: walk the
next snapshot's siblings in order; a sibling whose id is bound in the
previous group is `updated` and recurses against that previous node's
children, otherwise it is `new` and recurses against an empty group.
Unmatched previous siblings of each group are `removed` (only the group's
top ids are marked; their subtrees are not traversed). -/
def nodesDeltaL (prev : Forest) : Forest → Delta
  | .nil => ⟨[], [], []⟩
  | .cons i c _ _ r =>
    let here : Delta :=
      match prev.findTop i with
      | some pc =>
        dapp ⟨[], pc.topIds.filter (fun x => !c.topIds.contains x), [i]⟩ (nodesDeltaL pc c)
      | none => dapp ⟨[i], [], []⟩ (nodesDeltaL .nil c)
    dapp here (nodesDeltaL prev r)

/-- The node delta of `renderNodesDelta`: per-sibling-group keyed joins,
starting from the top-level groups. -/
def nodesDelta (prev next : Forest) : Delta :=
  dapp ⟨[], prev.topIds.filter (fun x => !next.topIds.contains x), []⟩ (nodesDeltaL prev next)

/-! ## Trace engine (`trace`)

`trace` walks backwards over `this.layout.edges` — the root edge-list only —
with a visited map keyed by node id.  The JS recursion is modelled with a
fuel parameter; `none` would mean the fuel ran out, and the adequacy theorem
for claim C5 shows the chosen fuel never does. -/

/-- State of the backward walk: the visited map's keys and the edges
recorded so far. -/
structure TState where
  checked : List String
  traced : List Edge
deriving DecidableEq, Repr

/-- `backtrack(id)`: stop at a visited id, otherwise mark it visited and,
for each edge of the root edge-list whose target is the id, record the edge
and recurse on its source. -/
def backtrackO (edges : List Edge) : Nat → TState → String → Option TState
  | 0, _, _ => none
  | fuel+1, st, i =>
    if st.checked.contains i then some st
    else
      (edges.filter (fun e => e.target == i)).foldlM
        (fun st' e => backtrackO edges fuel ⟨st'.checked, st'.traced ++ [e]⟩ e.source)
        (⟨i :: st.checked, st.traced⟩ : TState)

/-- Fuel for the backward walk: one more than the number of ids that can
ever be passed to `backtrack` (the start id and every edge source). -/
def traceFuel (edges : List Edge) (nodeId : String) : Nat :=
  (nodeId :: edges.map (fun e => e.source)).length + 1

/-- Every id the backward walk can visit: the start id and the sources of
all edges. -/
def traceUniv (edges : List Edge) (start : String) : List String :=
  start :: edges.map (fun e => e.source)

/-- Termination measure of the backward walk: how many visitable ids are
not yet in the visited map. -/
def muT (edges : List Edge) (start : String) (ch : List String) : Nat :=
  ((traceUniv edges start).dedup.filter (fun x => !ch.contains x)).length

/-- Result of `trace`: edges as plain source/target pairs and the
deduplicated node ids. -/
structure TraceResult where
  edges : List (String × String)
  nodes : List String
deriving DecidableEq, Repr

/-- Keep-first deduplication, as `_.uniq` does. -/
def uniqFirstGo (seen : List String) : List String → List String
  | [] => []
  | a :: l => if seen.contains a then uniqFirstGo seen l else a :: uniqFirstGo (a :: seen) l

/-- Keep-first deduplication of a list of ids (`_.uniq`). -/
def uniqFirst (l : List String) : List String := uniqFirstGo [] l

/-- `const data = this.layout || { edges: [] }`: the edge-list `trace`
consults — the root edge-list of the layout when one exists. -/
def traceEdges (layout : Option Graph) : List Edge :=
  match layout with
  | some g => g.edges
  | none => []

/-- `trace(nodeId)`: run the backward walk from the node id over the root
edge-list, then project the traced edges to source/target pairs and collect
the deduplicated sources and targets. -/
def trace (layout : Option Graph) (nodeId : String) : TraceResult :=
  let es := traceEdges layout
  match backtrackO es (traceFuel es nodeId) ⟨[], []⟩ nodeId with
  | some st =>
    ⟨st.traced.map (fun e => (e.source, e.target)),
     uniqFirst (st.traced.map (fun e => e.source) ++ st.traced.map (fun e => e.target))⟩
  | none => ⟨[], []⟩

/-! ## Viewport / culling calculator (`boundary`, `cullEdges`)

JS numbers are modelled as rationals; the zoom scale `k` of a d3 zoom
transform is always positive. -/

/-- A d3 zoom transform: scale `k`, translation `x`, `y`. -/
structure ZoomT where
  k : ℚ
  x : ℚ
  y : ℚ
deriving DecidableEq, Repr

/-- A rectangle in world coordinates. -/
structure Rect where
  x1 : ℚ
  y1 : ℚ
  x2 : ℚ
  y2 : ℚ
deriving DecidableEq, Repr

/-- A point. -/
structure Pt where
  x : ℚ
  y : ℚ
deriving DecidableEq, Repr

/-- `boundary()` of `svg-renderer.js`: the rectangle
`((0 - t.x)/t.k, (0 - t.y)/t.k)` to
`((layout.width - t.x)/t.k, (layout.height - t.y)/t.k)` — note that it is
built from the layout's size, not from the container's pixel size. -/
def boundary (t : ZoomT) (layoutWidth layoutHeight : ℚ) : Rect :=
  ⟨(0 - t.x) / t.k, (0 - t.y) / t.k, (layoutWidth - t.x) / t.k, (layoutHeight - t.y) / t.k⟩

/-- Whether a point is strictly outside the rectangle in some direction,
as tested inside `cullEdges`. -/
def outsidePt (b : Rect) (p : Pt) : Bool :=
  decide (p.x < b.x1) || decide (p.x > b.x2) || decide (p.y < b.y1) || decide (p.y > b.y2)

/-- The per-edge test of `cullEdges`: the edge is hidden when its first
geometry point and its last geometry point are both strictly outside the
rectangle (in any direction, not necessarily the same one). -/
def cullEdge (b : Rect) (s t : Pt) : Bool := outsidePt b s && outsidePt b t

/-- Inverse-mapping a screen point through a zoom transform (the transform
maps world `w` to screen `w * k + translate`). -/
def invMap (t : ZoomT) (p : Pt) : Pt := ⟨(p.x - t.x) / t.k, (p.y - t.y) / t.k⟩

/-- The culling rule as the claim words it: both endpoints strictly outside
on the same side. -/
def sameSideOut (b : Rect) (s t : Pt) : Bool :=
  (decide (s.x < b.x1) && decide (t.x < b.x1)) || (decide (s.x > b.x2) && decide (t.x > b.x2)) ||
  (decide (s.y < b.y1) && decide (t.y < b.y1)) || (decide (s.y > b.y2) && decide (t.y > b.y2))

/-- Membership in the closed visible rectangle. -/
def inClosedRect (b : Rect) (p : Pt) : Prop :=
  b.x1 ≤ p.x ∧ p.x ≤ b.x2 ∧ b.y1 ≤ p.y ∧ p.y ≤ b.y2

/-! ## Render entry points (`render`)

Only the precondition behaviour at the top of `render` is modelled: in the
`part_000` revision `render` throws `'Layout data not set'` when no layout
exists; in `svg-renderer.js` there is no check — a missing layout is
silently recomputed from the current data through the adapter. -/

/-- The guard at the top of `render` in the `part_000` revision. -/
def renderGuard (layout : Option Graph) : Except String Unit :=
  if layout.isNone then .error "Layout data not set" else .ok ()

/-- The start of `render` in `svg-renderer.js`: no precondition check; when
no layout exists one is computed from the current data by `runLayout`
(the adapter), and rendering proceeds. -/
def renderSvg (layout : Option Graph) (runLayout : Unit → Graph) : Except String Graph :=
  .ok (layout.getD (runLayout ()))

/-! ## Collapse / expand manager (`collapse`, `expand`) -/

/-- The endpoint(s) recorded for a rewritten edge
(`originalSource` / `originalTarget`). -/
structure Orig where
  source : Option String
  target : Option String
deriving DecidableEq, Repr

/-- A `collapseTracker[nodeId]` entry: the saved children subtree and the
edge-id-keyed map of rewritten endpoints. -/
structure CollapseRec where
  nodes : Option Forest
  edgeMap : List (String × Orig)
deriving DecidableEq, Repr

/-- The renderer's collapse bookkeeping: `collapseTracker` and
`hiddenEdges`, both JS objects keyed by node id. -/
structure RState where
  tracker : List (String × CollapseRec)
  hidden : List (String × List Edge)
deriving DecidableEq, Repr

/-- Whether both endpoints of the edge lie inside the collapsed subtree
(`childrenNodeIds.includes(edge.source) && childrenNodeIds.includes(edge.target)`). -/
def bothIn (ds : List String) (e : Edge) : Bool :=
  ds.contains e.source && ds.contains e.target

/-- Rewrite each endpoint lying inside the collapsed subtree to the
collapsed node id, recording the original value. -/
def rewriteEdge (ds : List String) (nid : String) (e : Edge) : Edge × Orig :=
  let s := if ds.contains e.source then (nid, some e.source) else (e.source, (none : Option String))
  let t := if ds.contains e.target then (nid, some e.target) else (e.target, (none : Option String))
  ({ e with source := s.1, target := t.1 }, ⟨s.2, t.2⟩)

/-- `_.isEmpty(originalEdge)`: no endpoint was rewritten. -/
def origEmpty (o : Orig) : Bool :=
  o.source.isNone && o.target.isNone

/-- One iteration of collapse's rewrite loop over an edge-list: rewrite the
edge and, when an endpoint was rewritten, record the original endpoints in
the edge map under the edge's id. -/
def processStep (ds : List String) (nid : String)
    (acc : List Edge × List (String × Orig)) (e : Edge) : List Edge × List (String × Orig) :=
  let eo := rewriteEdge ds nid e
  (acc.1 ++ [eo.1], if origEmpty eo.2 then acc.2 else setA e.id eo.2 acc.2)

/-- Collapse's handling of one edge-list: `_.remove` the fully-internal
edges (both endpoints inside), keeping the rest in order, then run the
rewrite loop over the remaining edges.  Returns the new list, the removed
(hidden) batch, and the extended edge map. -/
def processEdges (ds : List String) (nid : String) (es : List Edge)
    (em : List (String × Orig)) : List Edge × List Edge × List (String × Orig) :=
  let hidden := es.filter (bothIn ds)
  let kept := es.filter (fun e => !bothIn ds e)
  let out := kept.foldl (processStep ds nid) ([], em)
  (out.1, hidden, out.2)

/-- The mutable state threaded through collapse's traversal: the tracker
entry being built and the pending `hiddenEdges[nodeId]` value (each
non-empty removed batch overwrites the previous one). -/
structure TravSt where
  entry : CollapseRec
  hid : Option (List Edge)
deriving DecidableEq, Repr

/-- Collapse's traversal callback applied over a forest, in traversal
order.  At the node whose id matches: save its children into the tracker
entry, empty them and set `collapsed` (the shrunken proxy box is geometry
and is omitted); because the children list is emptied before the traversal
reads it, the subtree below the match is not walked.  At every visited
node: remove the fully-internal edges of its edge-list into the pending
hidden batch and run the rewrite loop on the rest. -/
def collapseWalk (ds : List String) (nid : String) : Forest → TravSt → Forest × TravSt
  | .nil, st => (.nil, st)
  | .cons i c es col r, st =>
    if i = nid then
      let st1 : TravSt := { st with entry := { st.entry with nodes := some c } }
      let out := processEdges ds nid es st1.entry.edgeMap
      let st2 : TravSt := { entry := { st1.entry with edgeMap := out.2.2 },
                            hid := if out.2.1.isEmpty then st1.hid else some out.2.1 }
      let rr := collapseWalk ds nid r st2
      (.cons i .nil out.1 true rr.1, rr.2)
    else
      let out := processEdges ds nid es st.entry.edgeMap
      let st2 : TravSt := { entry := { st.entry with edgeMap := out.2.2 },
                            hid := if out.2.1.isEmpty then st.hid else some out.2.1 }
      let cc := collapseWalk ds nid c st2
      let rr := collapseWalk ds nid r cc.2
      (.cons i cc.1 out.1 col rr.1, rr.2)

/-- `collapse(nodeId)`.  `childrenNodeIds` is the set of all descendant ids
of the target node (every `.node` element under it in the DOM).  A fresh
tracker entry is created first; when there are no descendants the function
returns at once (leaf no-op).  Otherwise the layout is traversed: the root
object itself carries no node id, so only its edge-list is processed, then
the forest is walked.  Finally the pending hidden batch, if any, is stored
under `hiddenEdges[nodeId]`. -/
def collapse (G : Graph) (st : RState) (nid : String) : Graph × RState :=
  let ds := match G.nodes.find? nid with
    | some x => x.1.allIds
    | none => []
  let tracker1 := setA nid ⟨none, []⟩ st.tracker
  if ds.isEmpty then (G, { st with tracker := tracker1 })
  else
    let rootOut := processEdges ds nid G.edges []
    let st1 : TravSt := ⟨⟨none, rootOut.2.2⟩, if rootOut.2.1.isEmpty then none else some rootOut.2.1⟩
    let walked := collapseWalk ds nid G.nodes st1
    let tracker2 := setA nid walked.2.entry tracker1
    let hidden2 := match walked.2.hid with
      | none => st.hidden
      | some h => setA nid h st.hidden
    (⟨walked.1, rootOut.1⟩, ⟨tracker2, hidden2⟩)

/-- Expand step 1: `node.datum().nodes = entry.nodes;
node.datum().collapsed = false` — update the first pre-order node with the
given id, returning the updated forest and whether a node was found. -/
def updateFirst (nid : String) (newChildren : Forest) : Forest → Forest × Bool
  | .nil => (.nil, false)
  | .cons i c es col r =>
    if i = nid then (.cons i newChildren es false r, true)
    else
      let cc := updateFirst nid newChildren c
      if cc.2 then (.cons i cc.1 es col r, true)
      else
        let rr := updateFirst nid newChildren r
        (.cons i cc.1 es col rr.1, rr.2)

/-- Expand step 2: traverse the expanded node's subtree; at each visited
node whose id has a key in `hiddenEdges` and whose `collapsed` flag is
false, concatenate `hiddenEdges[nodeId]` onto the root edge-list and delete
that key.  The accumulator carries (root edge-list, hiddenEdges). -/
def restoreWalk (nid : String) : Forest → List Edge × List (String × List Edge) →
    List Edge × List (String × List Edge)
  | .nil, acc => acc
  | .cons i c _ col r, acc =>
    let acc1 := if (lookupA i acc.2).isSome && !col
      then (acc.1 ++ (lookupA nid acc.2).getD [], eraseA nid acc.2)
      else acc
    let acc2 := restoreWalk nid c acc1
    restoreWalk nid r acc2

/-- Expand step 3, per edge: when the edge's id has an entry in the
collapse record's edge map, restore the recorded endpoint(s); the JS
`entry.edgeMap[edge.id].target || edge.target` keeps the current value when
the recorded one is falsy (in particular the empty string). -/
def revertEdge (em : List (String × Orig)) (e : Edge) : Edge :=
  match lookupA e.id em with
  | none => e
  | some o =>
    let t := match o.target with
      | some v => if v = "" then e.target else v
      | none => e.target
    let s := match o.source with
      | some v => if v = "" then e.source else v
      | none => e.source
    { e with source := s, target := t }

/-- Expand step 3 over the whole forest: revert every edge-list. -/
def revertWalk (em : List (String × Orig)) : Forest → Forest
  | .nil => .nil
  | .cons i c es col r => .cons i (revertWalk em c) (es.map (revertEdge em)) col (revertWalk em r)

/-- `expand(nodeId)`: requires an existing collapse record and a node with
the id (otherwise the JS code crashes, modelled as `none`).  Restore the
saved children and clear the collapsed flag, traverse the expanded subtree
restoring `hiddenEdges[nodeId]` into the root edge-list, revert the
rewritten endpoints everywhere, and delete the collapse record. -/
def expand (G : Graph) (st : RState) (nid : String) : Option (Graph × RState) :=
  match lookupA nid st.tracker with
  | none => none
  | some entry =>
    let upd := updateFirst nid (entry.nodes.getD .nil) G.nodes
    match upd.1.find? nid with
    | none => none
    | some comps =>
      let acc := restoreWalk nid (.cons nid comps.1 comps.2.1 comps.2.2 .nil) (G.edges, st.hidden)
      let rootEdges1 := acc.1.map (revertEdge entry.edgeMap)
      let forest2 := revertWalk entry.edgeMap upd.1
      some (⟨forest2, rootEdges1⟩, ⟨eraseA nid st.tracker, acc.2⟩)

/-! ## Specification shapes for collapse/expand

Pure descriptions of what collapse's stateful traversal produces, used to
state and prove the claims about `collapse` and `expand`. -/

/-- What one edge-list looks like after collapse processed it: internal
edges removed, the remaining edges rewritten in order. -/
def rwKept (ds : List String) (nid : String) (es : List Edge) : List Edge :=
  (es.filter (fun e => !bothIn ds e)).map (fun e => (rewriteEdge ds nid e).1)

/-- The edge-map entries one edge-list contributes, in order: one entry per
remaining edge that had an endpoint rewritten. -/
def entriesOf (ds : List String) (nid : String) (es : List Edge) : List (String × Orig) :=
  (es.filter (fun e => !bothIn ds e)).filterMap (fun e =>
    let o := (rewriteEdge ds nid e).2
    if origEmpty o then none else some (e.id, o))

/-- Sequential JS object assignments of a list of entries. -/
def emFold (em entries : List (String × Orig)) : List (String × Orig) :=
  entries.foldl (fun m p => setA p.1 p.2 m) em

/-- Option preference: the first value when present, otherwise the second
(a later overwriting assignment seen from the final state). -/
def oor {α : Type} (a b : Option α) : Option α :=
  match a with
  | some x => some x
  | none => b

/-- The forest produced by collapse's traversal: every walked node's
edge-list becomes `rwKept`; a node matching the id loses its children and
is flagged collapsed (and its subtree is not walked). -/
def Forest.cshape (ds : List String) (nid : String) : Forest → Forest
  | .nil => .nil
  | .cons i c es col r =>
    if i = nid then .cons i .nil (rwKept ds nid es) true (Forest.cshape ds nid r)
    else .cons i (Forest.cshape ds nid c) (rwKept ds nid es) col (Forest.cshape ds nid r)

/-- The edge-map entries contributed by the walked edge-lists of a forest,
in walk order. -/
def Forest.centries (ds : List String) (nid : String) : Forest → List (String × Orig)
  | .nil => []
  | .cons i c es _ r =>
    entriesOf ds nid es ++
      ((if i = nid then [] else Forest.centries ds nid c) ++ Forest.centries ds nid r)

/-- The children recorded by the walk's last match (later matches overwrite
`collapseTracker[nodeId].nodes`). -/
def Forest.csaved (nid : String) : Forest → Option Forest
  | .nil => none
  | .cons i c _ _ r =>
    oor (Forest.csaved nid r) (if i = nid then some c else Forest.csaved nid c)

/-- The edges of the walked edge-lists (subtrees below a matching node are
cut before the walk reads them). -/
def Forest.wEdges (nid : String) : Forest → List Edge
  | .nil => []
  | .cons i c es _ r =>
    es ++ ((if i = nid then [] else Forest.wEdges nid c) ++ Forest.wEdges nid r)

/-- The edges of the not-walked edge-lists: everything strictly below a
matching node. -/
def Forest.hEdges (nid : String) : Forest → List Edge
  | .nil => []
  | .cons i c _ _ r =>
    (if i = nid then c.allEdges else Forest.hEdges nid c) ++ Forest.hEdges nid r

/-- No walked edge-list contains a fully-internal edge (the root edge-list
is treated separately). -/
def Forest.cleanWalk (ds : List String) (nid : String) : Forest → Bool
  | .nil => true
  | .cons i c es _ r =>
    (es.filter (bothIn ds)).isEmpty &&
    ((if i = nid then true else Forest.cleanWalk ds nid c) && Forest.cleanWalk ds nid r)

/-- Every walked node matching the id has `collapsed = false`. -/
def Forest.walkColOK (nid : String) : Forest → Bool
  | .nil => true
  | .cons i c _ col r =>
    (if i = nid then !col else Forest.walkColOK nid c) && Forest.walkColOK nid r

/-- The forest after expand restored the saved children at the (unique)
matching node: the match keeps its original children and gets
`collapsed = false`, every walked edge-list is still in its rewritten
form. -/
def Forest.mexp (ds : List String) (nid : String) : Forest → Forest
  | .nil => .nil
  | .cons i c es col r =>
    if i = nid then .cons i c (rwKept ds nid es) false (Forest.mexp ds nid r)
    else .cons i (Forest.mexp ds nid c) (rwKept ds nid es) col (Forest.mexp ds nid r)

/-! ## Concrete graphs used as counterexamples and witnesses -/

/-- The child forest `X`, `Y` used by the round-trip witness graph. -/
def wRoundChildren : Forest :=
  Forest.cons "X" Forest.nil [] false (Forest.cons "Y" Forest.nil [] false Forest.nil)

/-- The child forest `X`, `Y` used by the partition witness graph. -/
def wCollapseChildren : Forest :=
  Forest.cons "X" Forest.nil [] false (Forest.cons "Y" Forest.nil [] false Forest.nil)

/-- Node `P` containing children `X`, `Y`, with the internal edge
`e1 : X -> Y` held in `P`'s own edge-list; the root edge-list is empty. -/
def cxRoundGraph : Graph :=
  ⟨.cons "P" (.cons "X" .nil [] false (.cons "Y" .nil [] false .nil)) [⟨"e1", "X", "Y"⟩] false .nil,
   []⟩

/-- The spec's section-8 example: nodes `A`, `P` (children `X`, `Y`), `Z`,
all edges at the top level: `e1 : X -> Y` internal, `e2 : A -> X` and
`e3 : Y -> Z` boundary-crossing. -/
def wRoundGraph : Graph :=
  ⟨.cons "A" .nil [] false
    (.cons "P" (.cons "X" .nil [] false (.cons "Y" .nil [] false .nil)) [] false
      (.cons "Z" .nil [] false .nil)),
   [⟨"e1", "X", "Y"⟩, ⟨"e2", "A", "X"⟩, ⟨"e3", "Y", "Z"⟩]⟩

/-- Internal edges in two different edge-lists: `e1 : X -> Y` at the root
and `e2 : Y -> X` in `P`'s own edge-list. -/
def cxCollapseGraph : Graph :=
  ⟨.cons "P" (.cons "X" .nil [] false (.cons "Y" .nil [] false .nil)) [⟨"e2", "Y", "X"⟩] false .nil,
   [⟨"e1", "X", "Y"⟩]⟩

/-- Nodes `A`, `P` (children `X`, `Y`), `Z` with top-level edges of all
three kinds: internal `e1 : X -> Y`, one-endpoint `e2 : A -> X` and
`e3 : Y -> Z`, zero-endpoint `e4 : A -> Z`. -/
def wCollapseGraph : Graph :=
  ⟨.cons "A" .nil [] false
    (.cons "P" (.cons "X" .nil [] false (.cons "Y" .nil [] false .nil)) [] false
      (.cons "Z" .nil [] false .nil)),
   [⟨"e1", "X", "Y"⟩, ⟨"e2", "A", "X"⟩, ⟨"e3", "Y", "Z"⟩, ⟨"e4", "A", "Z"⟩]⟩

/-- Nodes `A`, `B`, `C` with `e1 : A -> B`, `e2 : B -> C` at the top
level (the trace example of the spec). -/
def traceExampleGraph : Graph :=
  ⟨.cons "A" .nil [] false (.cons "B" .nil [] false (.cons "C" .nil [] false .nil)),
   [⟨"e1", "A", "B"⟩, ⟨"e2", "B", "C"⟩]⟩

/-- A nested graph used to exercise the identity re-diff: node `N`
containing `M`, with one edge at each nesting level. -/
def wDiffGraph : Graph :=
  ⟨.cons "N" (.cons "M" .nil [⟨"e2", "M", "M"⟩] false .nil) [⟨"e1", "N", "M"⟩] false .nil,
   [⟨"e0", "N", "N"⟩]⟩

/-- Previous snapshot for the flattened-edge-diff witness: edge `e5` held
in node `N`'s nested edge-list. -/
def wDeltaPrev : Graph :=
  ⟨.cons "N" .nil [⟨"e5", "N", "N"⟩] false .nil, []⟩

/-- Next snapshot for the flattened-edge-diff witness: the same edge id
`e5` now held at the root's top-level edge-list. -/
def wDeltaNext : Graph :=
  ⟨.cons "N" .nil [] false .nil, [⟨"e5", "N", "N"⟩]⟩

/-- A single childless node `L`. -/
def cxLeafGraph : Graph := ⟨.cons "L" .nil [] false .nil, []⟩

/-- A leaf node `L` next to a compound node `Q`, with an edge between
them. -/
def wLeafGraph : Graph :=
  ⟨.cons "L" .nil [] false (.cons "Q" (.cons "R" .nil [] false .nil) [] false .nil),
   [⟨"e9", "L", "Q"⟩]⟩

/-! ## Helper lemmas -/

theorem outsidePt_iff (b : Rect) (p : Pt) : outsidePt b p = true ↔ ¬inClosedRect b p := by
  simp only [outsidePt, inClosedRect, Bool.or_eq_true, decide_eq_true_eq, ← not_le]
  tauto

theorem contains_true_iff (l : List String) (a : String) : l.contains a = true ↔ a ∈ l :=
  List.elem_iff

theorem contains_false_iff (l : List String) (a : String) : l.contains a = false ↔ a ∉ l := by
  constructor
  · intro h hm
    rw [(contains_true_iff l a).mpr hm] at h
    exact Bool.noConfusion h
  · intro h
    cases hc : l.contains a with
    | false => rfl
    | true => exact absurd ((contains_true_iff l a).mp hc) h

theorem filter_imp_sublist {α : Type} (l : List α) (p q : α → Bool)
    (h : ∀ a, p a = true → q a = true) : List.Sublist (l.filter p) (l.filter q) := by
  induction l with
  | nil => simp
  | cons a l ih =>
    by_cases hp : p a = true
    · rw [List.filter_cons_of_pos hp, List.filter_cons_of_pos (h a hp)]
      exact ih.cons_cons a
    · rw [List.filter_cons_of_neg hp]
      by_cases hq : q a = true
      · rw [List.filter_cons_of_pos hq]
        exact ih.cons _
      · rw [List.filter_cons_of_neg hq]
        exact ih

theorem muT_anti (edges : List Edge) (start : String) (ch ch' : List String)
    (h : ∀ x, ch.contains x = true → ch'.contains x = true) :
    muT edges start ch' ≤ muT edges start ch := by
  refine (filter_imp_sublist _ _ _ ?_).length_le
  intro a ha
  rw [Bool.not_eq_true'] at ha ⊢
  cases hc : ch.contains a with
  | false => rfl
  | true => exact absurd ((contains_true_iff ch' a).mp (h a hc)) ((contains_false_iff ch' a).mp ha)

theorem muT_insert_lt (edges : List Edge) (start : String) (ch : List String) (a : String)
    (hmem : a ∈ traceUniv edges start) (hnc : ch.contains a = false) :
    muT edges start (a :: ch) < muT edges start ch := by
  have hsub : List.Sublist
      ((traceUniv edges start).dedup.filter (fun x => !(a :: ch).contains x))
      ((traceUniv edges start).dedup.filter (fun x => !ch.contains x)) := by
    refine filter_imp_sublist _ _ _ ?_
    intro x hx
    rw [Bool.not_eq_true'] at hx ⊢
    rw [List.contains_cons] at hx
    exact (Bool.or_eq_false_iff.mp hx).2
  rcases Nat.lt_or_ge (((traceUniv edges start).dedup.filter (fun x => !(a :: ch).contains x)).length)
      (((traceUniv edges start).dedup.filter (fun x => !ch.contains x)).length) with hlt | hge
  · exact hlt
  · exfalso
    have heq := hsub.eq_of_length (Nat.le_antisymm hsub.length_le hge)
    have hamem : a ∈ (traceUniv edges start).dedup.filter (fun x => !ch.contains x) := by
      refine List.mem_filter.mpr ⟨List.mem_dedup.mpr hmem, ?_⟩
      rw [hnc]; rfl
    rw [← heq] at hamem
    have h2 := (List.mem_filter.mp hamem).2
    have h3 : (a :: ch).contains a = true := by simp [List.contains_cons]
    rw [h3] at h2
    simp at h2

theorem backtrackO_checked_mono (edges : List Edge) :
    ∀ fuel st i st', backtrackO edges fuel st i = some st' →
      ∀ x, st.checked.contains x = true → st'.checked.contains x = true := by
  intro fuel
  induction fuel with
  | zero => intro st i st' h; exact absurd h (by simp [backtrackO])
  | succ fuel ih =>
    intro st i st' h x hx
    rw [backtrackO] at h
    by_cases hc : st.checked.contains i = true
    · rw [if_pos hc] at h
      cases h
      exact hx
    · rw [if_neg hc] at h
      -- h : foldlM over the filtered edges starting from ⟨i :: st.checked, st.traced⟩
      have haux : ∀ (l : List Edge) (st0 : TState),
          l.foldlM (fun st' e => backtrackO edges fuel ⟨st'.checked, st'.traced ++ [e]⟩ e.source) st0 =
            some st' →
          ∀ y, st0.checked.contains y = true → st'.checked.contains y = true := by
        intro l
        induction l with
        | nil =>
          intro st0 h0 y hy
          simp only [List.foldlM_nil] at h0
          cases h0
          exact hy
        | cons e l ihl =>
          intro st0 h0 y hy
          rw [List.foldlM_cons] at h0
          rcases Option.bind_eq_some.mp h0 with ⟨s1, hs1, hrest⟩
          exact ihl s1 hrest y (ih ⟨st0.checked, st0.traced ++ [e]⟩ e.source s1 hs1 y hy)
      refine haux _ _ h x ?_
      rw [List.contains_cons]
      rw [hx]
      simp

theorem backtrackO_adequate (edges : List Edge) (start : String) :
    ∀ fuel st i, i ∈ traceUniv edges start →
      muT edges start st.checked < fuel →
      (backtrackO edges fuel st i).isSome := by
  intro fuel
  induction fuel with
  | zero => intro st i _ hmu; exact absurd hmu (Nat.not_lt_zero _)
  | succ fuel ih =>
    intro st i hi hmu
    rw [backtrackO]
    by_cases hc : st.checked.contains i = true
    · rw [if_pos hc]; rfl
    · rw [if_neg hc]
      have hc' : st.checked.contains i = false := by
        cases h : st.checked.contains i with
        | false => rfl
        | true => exact absurd h hc
      have hmu1 : muT edges start (i :: st.checked) < fuel := by
        have := muT_insert_lt edges start st.checked i hi hc'
        omega
      have hedge : ∀ e ∈ edges.filter (fun e => e.target == i), e.source ∈ traceUniv edges start := by
        intro e he
        have := List.mem_of_mem_filter he
        exact List.mem_cons_of_mem start (List.mem_map_of_mem (fun e => e.source) this)
      -- fold preserves definedness while the measure stays below the fuel
      have haux : ∀ (l : List Edge), (∀ e ∈ l, e.source ∈ traceUniv edges start) →
          ∀ st0 : TState, muT edges start st0.checked < fuel →
          (l.foldlM (fun st' e => backtrackO edges fuel ⟨st'.checked, st'.traced ++ [e]⟩ e.source) st0).isSome := by
        intro l
        induction l with
        | nil => intro _ st0 _; rfl
        | cons e l ihl =>
          intro hl st0 hmu0
          rw [List.foldlM_cons]
          have h1 : (backtrackO edges fuel ⟨st0.checked, st0.traced ++ [e]⟩ e.source).isSome :=
            ih ⟨st0.checked, st0.traced ++ [e]⟩ e.source (hl e (List.mem_cons_self e l)) hmu0
          rcases Option.isSome_iff_exists.mp h1 with ⟨s1, hs1⟩
          rw [hs1]
          show (l.foldlM (fun st' e => backtrackO edges fuel ⟨st'.checked, st'.traced ++ [e]⟩ e.source) s1).isSome
          refine ihl (fun e' he' => hl e' (List.mem_cons_of_mem e he')) s1 ?_
          have hmono := backtrackO_checked_mono edges fuel ⟨st0.checked, st0.traced ++ [e]⟩ e.source s1 hs1
          have := muT_anti edges start st0.checked s1.checked hmono
          omega
      exact haux _ hedge ⟨i :: st.checked, st.traced⟩ hmu1

theorem uniqFirstGo_spec (l : List String) :
    ∀ seen, (uniqFirstGo seen l).Nodup ∧ ∀ x ∈ uniqFirstGo seen l, x ∉ seen := by
  induction l with
  | nil => intro seen; exact ⟨List.nodup_nil, by intro x hx; cases hx⟩
  | cons a l ih =>
    intro seen
    by_cases hc : seen.contains a = true
    · simp only [uniqFirstGo, if_pos hc]
      exact ih seen
    · have hc' : seen.contains a = false := by
        cases h : seen.contains a with
        | false => rfl
        | true => exact absurd h hc
      simp only [uniqFirstGo, hc', Bool.false_eq_true, if_false]
      obtain ⟨hnd, hni⟩ := ih (a :: seen)
      refine ⟨List.nodup_cons.mpr ⟨?_, hnd⟩, ?_⟩
      · intro hmem
        exact (hni a hmem) (List.mem_cons_self a seen)
      · intro x hx
        rcases List.mem_cons.mp hx with h1 | h1
        · subst h1
          exact (contains_false_iff seen x).mp hc'
        · intro hxs
          exact (hni x h1) (List.mem_cons_of_mem a hxs)

theorem trace_nodes_nodup (layout : Option Graph) (nodeId : String) :
    (trace layout nodeId).nodes.Nodup := by
  rw [trace]
  cases h : backtrackO (traceEdges layout) (traceFuel (traceEdges layout) nodeId) ⟨[], []⟩ nodeId with
  | none => exact List.nodup_nil
  | some st => exact (uniqFirstGo_spec _ []).1

/-- Claim C5: for every graph (cyclic edge relations included) the
backward walk of `trace` terminates — the chosen fuel is never exhausted —
and the node-id list of the result contains no duplicates. -/
theorem trace_terminates (layout : Option Graph) (nodeId : String) :
    (backtrackO (traceEdges layout) (traceFuel (traceEdges layout) nodeId) ⟨[], []⟩ nodeId).isSome ∧
    (trace layout nodeId).nodes.Nodup := by
  refine ⟨?_, trace_nodes_nodup layout nodeId⟩
  apply backtrackO_adequate (traceEdges layout) nodeId
  · exact List.mem_cons_self _ _
  · show muT (traceEdges layout) nodeId [] < traceFuel (traceEdges layout) nodeId
    have h1 : muT (traceEdges layout) nodeId [] ≤ (traceUniv (traceEdges layout) nodeId).dedup.length := by
      rw [muT]
      exact List.length_filter_le _ _
    have h2 : (traceUniv (traceEdges layout) nodeId).dedup.length ≤ (traceUniv (traceEdges layout) nodeId).length :=
      (List.dedup_sublist _).length_le
    have h3 : traceFuel (traceEdges layout) nodeId = (traceUniv (traceEdges layout) nodeId).length + 1 := rfl
    omega

theorem filter_not_contains_self (l : List String) :
    l.filter (fun x => !l.contains x) = [] := by
  rw [List.filter_eq_nil_iff]
  intro a ha
  simp
  exact ha

theorem topSibs_fst_mem {F : Forest} {p : String × Forest} (h : p ∈ F.topSibs) :
    p.1 ∈ F.topIds := by
  induction F with
  | nil => cases h
  | cons i c es col r ihc ihr =>
    rcases List.mem_cons.mp h with h1 | h1
    · simp [Forest.topIds, h1]
    · exact List.mem_cons_of_mem i (ihr h1)

theorem findTop_self {F : Forest} (hnd : F.topIds.Nodup) :
    ∀ p ∈ F.topSibs, F.findTop p.1 = some p.2 := by
  induction F with
  | nil => intro p hp; cases hp
  | cons i c es col r ihc ihr =>
    intro p hp
    rcases List.mem_cons.mp hp with h1 | h1
    · subst h1; simp [Forest.findTop]
    · have hne : i ≠ p.1 := by
        intro hcontra
        have := topSibs_fst_mem h1
        rw [← hcontra] at this
        exact (List.nodup_cons.mp hnd).1 this
      simp only [Forest.findTop, if_neg hne]
      exact ihr (List.nodup_cons.mp hnd).2 p h1

theorem topIds_sublist (F : Forest) : List.Sublist F.topIds F.allIds := by
  induction F with
  | nil => simp [Forest.topIds, Forest.allIds]
  | cons i c es col r ihc ihr =>
    simp only [Forest.topIds, Forest.allIds]
    exact (ihr.trans (List.sublist_append_right c.allIds r.allIds)).cons_cons i

theorem allIds_nodup_parts {i : String} {c : Forest} {es : List Edge} {col : Bool} {r : Forest}
    (h : (Forest.cons i c es col r).allIds.Nodup) :
    c.allIds.Nodup ∧ r.allIds.Nodup ∧ i ∉ c.allIds ∧ i ∉ r.allIds ∧
      ∀ x ∈ c.allIds, x ∉ r.allIds := by
  simp only [Forest.allIds, List.nodup_cons, List.mem_append, List.nodup_append] at h
  refine ⟨h.2.1, h.2.2.1, fun hc => h.1 (Or.inl hc), fun hr => h.1 (Or.inr hr), h.2.2.2⟩

theorem nodesDeltaL_self (next : Forest) :
    ∀ prev : Forest, next.allIds.Nodup →
      (∀ p ∈ next.topSibs, prev.findTop p.1 = some p.2) →
      nodesDeltaL prev next = ⟨[], [], next.allIds⟩ := by
  induction next with
  | nil => intro prev _ _; rfl
  | cons i c es col r ihc ihr =>
    intro prev hnd hcond
    have hc : prev.findTop i = some c := hcond (i, c) (by simp [Forest.topSibs])
    obtain ⟨hndc, hndr, _, _, _⟩ := allIds_nodup_parts hnd
    have hcc : nodesDeltaL c c = ⟨[], [], c.allIds⟩ :=
      ihc c hndc (findTop_self ((topIds_sublist c).nodup hndc))
    have hrr : nodesDeltaL prev r = ⟨[], [], r.allIds⟩ :=
      ihr prev hndr (fun p hp => hcond p (List.mem_cons_of_mem (i, c) hp))
    simp [nodesDeltaL, hc, hcc, hrr, dapp, filter_not_contains_self, Forest.allIds]

theorem edgesDelta_self (G : Graph) :
    edgesDelta G G = ⟨[], [], G.flatEdges.map (fun e => e.id)⟩ := by
  simp only [edgesDelta]
  refine congrArg₂ (Delta.mk · · _) ?_ ?_ |>.trans (congrArg (Delta.mk [] []) ?_)
  · have : G.flatEdges.filter
        (fun e => !(G.flatEdges.map (fun e => e.id)).contains e.id) = [] := by
      rw [List.filter_eq_nil_iff]
      intro e he
      simp
      exact ⟨e, he, rfl⟩
    rw [this]; rfl
  · exact filter_not_contains_self _
  · have : G.flatEdges.filter
        (fun e => (G.flatEdges.map (fun e => e.id)).contains e.id) = G.flatEdges := by
      rw [List.filter_eq_self]
      intro e he
      simp
      exact ⟨e, he, rfl⟩
    rw [this]

/-! ## Claim C3: identity re-diff -/

/-- Claim C3: diffing a graph against itself yields no added and no
removed elements; every node id and every edge id (the edges taken
flattened across all nesting levels) is classified updated, and the three
classifications are pairwise disjoint. -/
theorem diff_identity (G : Graph) (hnd : G.nodes.allIds.Nodup) :
    nodesDelta G.nodes G.nodes = ⟨[], [], G.nodes.allIds⟩ ∧
    edgesDelta G G = ⟨[], [], G.flatEdges.map (fun e => e.id)⟩ ∧
    (∀ x ∈ (nodesDelta G.nodes G.nodes).updated,
        x ∉ (nodesDelta G.nodes G.nodes).added ∧ x ∉ (nodesDelta G.nodes G.nodes).removedIds) ∧
    (∀ x ∈ (edgesDelta G G).updated,
        x ∉ (edgesDelta G G).added ∧ x ∉ (edgesDelta G G).removedIds) := by
  have hn : nodesDelta G.nodes G.nodes = ⟨[], [], G.nodes.allIds⟩ := by
    have h1 : nodesDeltaL G.nodes G.nodes = ⟨[], [], G.nodes.allIds⟩ :=
      nodesDeltaL_self G.nodes G.nodes hnd
        (findTop_self ((topIds_sublist G.nodes).nodup hnd))
    simp [nodesDelta, h1, dapp, filter_not_contains_self]
  have he := edgesDelta_self G
  refine ⟨hn, he, ?_, ?_⟩
  · rw [hn]; intro x _; simp
  · rw [he]; intro x _; simp

/-- Witness for `diff_identity` at the nested two-level graph
`wDiffGraph`. -/
theorem diff_identity_witness :
    wDiffGraph.nodes.allIds.Nodup ∧
    (nodesDelta wDiffGraph.nodes wDiffGraph.nodes = ⟨[], [], wDiffGraph.nodes.allIds⟩ ∧
     edgesDelta wDiffGraph wDiffGraph = ⟨[], [], wDiffGraph.flatEdges.map (fun e => e.id)⟩ ∧
     (∀ x ∈ (nodesDelta wDiffGraph.nodes wDiffGraph.nodes).updated,
         x ∉ (nodesDelta wDiffGraph.nodes wDiffGraph.nodes).added ∧
         x ∉ (nodesDelta wDiffGraph.nodes wDiffGraph.nodes).removedIds) ∧
     (∀ x ∈ (edgesDelta wDiffGraph wDiffGraph).updated,
         x ∉ (edgesDelta wDiffGraph wDiffGraph).added ∧
         x ∉ (edgesDelta wDiffGraph wDiffGraph).removedIds)) :=
  ⟨by decide, diff_identity wDiffGraph (by decide)⟩

/-! ## Claim C4: the edge diff is over the flattened edge set -/

/-- Claim C4: an edge id present in the flattened edge set of both
snapshots — regardless of which nesting level's edge-list holds it in
either — is classified updated, and never added or removed. -/
theorem edges_diff_flattened (L1 L2 : Graph) (eid : String)
    (h1 : eid ∈ L1.flatEdges.map (fun e => e.id))
    (h2 : eid ∈ L2.flatEdges.map (fun e => e.id)) :
    eid ∈ (edgesDelta L1 L2).updated ∧
    eid ∉ (edgesDelta L1 L2).added ∧
    eid ∉ (edgesDelta L1 L2).removedIds := by
  obtain ⟨e, he, heid⟩ := List.mem_map.mp h2
  refine ⟨?_, ?_, ?_⟩
  · simp only [edgesDelta]
    refine List.mem_map.mpr ⟨e, List.mem_filter.mpr ⟨he, ?_⟩, heid⟩
    rw [heid]
    exact List.elem_iff.mpr h1
  · intro hmem
    simp only [edgesDelta] at hmem
    obtain ⟨e2, he2, heid2⟩ := List.mem_map.mp hmem
    have hf := (List.mem_filter.mp he2).2
    rw [heid2] at hf
    simp at hf
    obtain ⟨e3, he3, heq3⟩ := List.mem_map.mp h1
    exact hf e3 he3 heq3
  · intro hmem
    simp only [edgesDelta] at hmem
    have hf := (List.mem_filter.mp hmem).2
    simp at hf
    obtain ⟨e3, he3, heq3⟩ := List.mem_map.mp h2
    exact hf e3 he3 heq3

/-- Witness for `edges_diff_flattened`: the edge `e5` moves from a nested
edge-list in the previous snapshot to the root's edge-list in the next
snapshot and is classified updated. -/
theorem edges_diff_flattened_witness :
    ("e5" ∈ wDeltaPrev.flatEdges.map (fun e => e.id) ∧
     "e5" ∈ wDeltaNext.flatEdges.map (fun e => e.id)) ∧
    ("e5" ∈ (edgesDelta wDeltaPrev wDeltaNext).updated ∧
     "e5" ∉ (edgesDelta wDeltaPrev wDeltaNext).added ∧
     "e5" ∉ (edgesDelta wDeltaPrev wDeltaNext).removedIds) :=
  ⟨⟨by decide, by decide⟩,
   edges_diff_flattened wDeltaPrev wDeltaNext "e5" (by decide) (by decide)⟩

/-! ## Claim C6: the trace example -/

/-- Claim C6 counterexample: on the graph `A -e1-> B -e2-> C`,
`trace("C")` does not return the edges `[{A,B},{B,C}]` with nodes
`[A,B,C]` as the claim states. -/
theorem trace_example_counterexample :
    trace (some traceExampleGraph) "C" ≠ ⟨[("A", "B"), ("B", "C")], ["A", "B", "C"]⟩ := by
  decide

/-- Claim C6 (amended): the backward walk discovers the edge into `C`
first, so `trace("C")` returns edges `[{B,C},{A,B}]` and nodes
`[B,A,C]`. -/
theorem trace_example_result :
    trace (some traceExampleGraph) "C" = ⟨[("B", "C"), ("A", "B")], ["B", "A", "C"]⟩ := by
  decide

/-! ## Claim C9: render precondition -/

/-- Claim C9 counterexample: in `svg-renderer.js`, requesting a render with
no layout set does not fail — the layout adapter is silently run on the
current data and rendering proceeds. -/
theorem render_no_layout_counterexample :
    renderSvg none (fun _ => ⟨Forest.nil, []⟩) = .ok ⟨Forest.nil, []⟩ := rfl

/-- Claim C9 (amended): the `part_000` revision's `render` fails
synchronously with the precondition error `'Layout data not set'` when no
layout exists and succeeds otherwise, while the `svg-renderer.js` `render`
never checks: with no layout it silently computes one from the current
data. -/
theorem render_precondition_behaviour :
    renderGuard none = .error "Layout data not set" ∧
    (∀ g : Graph, renderGuard (some g) = .ok ()) ∧
    (∀ runLayout : Unit → Graph, renderSvg none runLayout = .ok (runLayout ())) :=
  ⟨rfl, fun _ => rfl, fun _ => rfl⟩

/-! ## Claim C10: trace reads only the root edge-list -/

/-- Claim C10: `trace` consults only the root edge-list — replacing the
whole node forest (with every nested edge-list) changes nothing — and with
no layout at all the result is empty. -/
theorem trace_only_root_edges :
    ∀ (g : Graph) (nodeId : String),
      trace (some g) nodeId = trace (some ⟨Forest.nil, g.edges⟩) nodeId ∧
      trace none nodeId = ⟨[], []⟩ :=
  fun _ _ => ⟨rfl, rfl⟩

/-! ## Claim C7: viewport boundary and edge culling -/

/-- Claim C7 counterexample: with the visible rectangle `(0,0)-(10,10)`,
an edge whose endpoints are out of view on opposite sides (left and right)
is culled by `cullEdges`, although the claim says it must stay visible;
and with the identity transform, a 100x100 layout and a 50x50 container,
`boundary` is not the inverse image of the container's corners. -/
theorem cull_counterexample :
    cullEdge ⟨0, 0, 10, 10⟩ ⟨-5, 5⟩ ⟨15, 5⟩ = true ∧
    sameSideOut ⟨0, 0, 10, 10⟩ ⟨-5, 5⟩ ⟨15, 5⟩ = false ∧
    boundary ⟨1, 0, 0⟩ 100 100 ≠
      ⟨(invMap ⟨1, 0, 0⟩ ⟨0, 0⟩).x, (invMap ⟨1, 0, 0⟩ ⟨0, 0⟩).y,
       (invMap ⟨1, 0, 0⟩ ⟨50, 50⟩).x, (invMap ⟨1, 0, 0⟩ ⟨50, 50⟩).y⟩ := by
  refine ⟨by decide, by decide, ?_⟩
  simp [boundary, invMap]

/-- Claim C7 (amended): the visible rectangle inverse-maps the corners
`(0,0)` and `(layout.width, layout.height)` — the layout's size, not the
container's — and an edge is culled exactly when its first and its last
geometry point each lie strictly outside that rectangle, in any direction
(not necessarily the same side for both). -/
theorem cull_rule :
    ∀ (t : ZoomT) (w h : ℚ) (s p : Pt),
      boundary t w h =
        ⟨(invMap t ⟨0, 0⟩).x, (invMap t ⟨0, 0⟩).y, (invMap t ⟨w, h⟩).x, (invMap t ⟨w, h⟩).y⟩ ∧
      (cullEdge (boundary t w h) s p = true ↔
        ¬inClosedRect (boundary t w h) s ∧ ¬inClosedRect (boundary t w h) p) := by
  intro t w h s p
  refine ⟨rfl, ?_⟩
  simp only [cullEdge, Bool.and_eq_true, outsidePt_iff]

/-! ## Claim C8: collapsing a leaf -/

/-- Claim C8 counterexample: collapsing the childless node `L` leaves the
graph alone but does not leave the collapse bookkeeping unchanged — a
fresh empty collapse record is created for `L` before the leaf check
returns. -/
theorem collapse_leaf_counterexample :
    (collapse cxLeafGraph ⟨[], []⟩ "L").2 ≠ (⟨[], []⟩ : RState) ∧
    collapse cxLeafGraph ⟨[], []⟩ "L" = (cxLeafGraph, ⟨[("L", ⟨none, []⟩)], []⟩) := by
  exact ⟨by decide, by decide⟩

/-- Claim C8 (amended): collapsing a node with no children returns without
error and leaves the graph, the hidden-edge store and every other collapse
record unchanged, but it does install an empty collapse record (no saved
children, empty edge map) for the requested node id. -/
theorem collapse_leaf_noop (G : Graph) (st : RState) (nid : String)
    (es : List Edge) (col : Bool)
    (hfind : G.nodes.find? nid = some (.nil, es, col)) :
    collapse G st nid = (G, ⟨setA nid ⟨none, []⟩ st.tracker, st.hidden⟩) := by
  simp [collapse, hfind, Forest.allIds]

/-- Witness for `collapse_leaf_noop` at the concrete graph `wLeafGraph`
and its childless node `L`. -/
theorem collapse_leaf_noop_witness :
    collapse wLeafGraph ⟨[], []⟩ "L" = (wLeafGraph, ⟨setA "L" ⟨none, []⟩ [], []⟩) :=
  collapse_leaf_noop wLeafGraph ⟨[], []⟩ "L" [] false (by decide)

/- ### Association-list lemmas -/

theorem lookupA_setA {α : Type} (k k' : String) (v : α) (m : List (String × α)) :
    lookupA k (setA k' v m) = if k' = k then some v else lookupA k m := by
  induction m with
  | nil =>
    simp only [setA, lookupA]
  | cons p m ih =>
    obtain ⟨k1, v1⟩ := p
    by_cases h1 : k1 = k'
    · subst h1
      by_cases h2 : k1 = k
      · subst h2
        simp [setA, lookupA]
      · simp only [setA, if_pos rfl, lookupA, if_neg h2]
    · simp only [setA, if_neg h1, lookupA]
      by_cases h2 : k1 = k
      · subst h2
        rw [if_pos rfl, if_neg (fun hc => h1 hc.symm), if_pos rfl]
      · rw [if_neg h2, ih, if_neg h2]

theorem setA_setA_same {α : Type} (k : String) (v v' : α) (m : List (String × α)) :
    setA k v (setA k v' m) = setA k v m := by
  induction m with
  | nil => simp [setA]
  | cons p m ih =>
    obtain ⟨k1, v1⟩ := p
    by_cases h1 : k1 = k
    · subst h1
      simp [setA]
    · simp only [setA, if_neg h1, ih]

theorem setA_fresh {α : Type} (k : String) (v : α) (m : List (String × α))
    (h : k ∉ m.map Prod.fst) : setA k v m = m ++ [(k, v)] := by
  induction m with
  | nil => simp [setA]
  | cons p m ih =>
    obtain ⟨k1, v1⟩ := p
    have h1 : k1 ≠ k := by
      intro hc
      exact h (by simp [hc])
    simp only [setA, if_neg h1, List.cons_append]
    rw [ih (fun hc => h (by simp; right; simpa using hc))]

theorem lookupA_append {α : Type} (k : String) (m n : List (String × α)) :
    lookupA k (m ++ n) = match lookupA k m with
      | some v => some v
      | none => lookupA k n := by
  induction m with
  | nil => rfl
  | cons p m ih =>
    obtain ⟨k1, v1⟩ := p
    by_cases h1 : k1 = k
    · simp [lookupA, if_pos h1]
    · have hs : lookupA k ((k1, v1) :: m) = lookupA k m := by rw [lookupA, if_neg h1]
      rw [List.cons_append, lookupA, if_neg h1, ih, hs]

theorem emFold_append (em a b : List (String × Orig)) :
    emFold em (a ++ b) = emFold (emFold em a) b := by
  simp [emFold, List.foldl_append]

theorem emFold_fresh (em l : List (String × Orig))
    (h : (em.map Prod.fst ++ l.map Prod.fst).Nodup) : emFold em l = em ++ l := by
  induction l generalizing em with
  | nil => simp [emFold]
  | cons p l ih =>
    obtain ⟨k1, v1⟩ := p
    have hk1 : k1 ∉ em.map Prod.fst := by
      have := (List.nodup_append.mp h).2.2
      intro hc
      exact this hc (by simp)
    have hstep : setA k1 v1 em = em ++ [(k1, v1)] := setA_fresh k1 v1 em hk1
    show emFold (setA k1 v1 em) l = em ++ (k1, v1) :: l
    rw [hstep]
    rw [ih (em ++ [(k1, v1)]) ?hnd]
    · simp
    case hnd =>
      have heq : (em ++ [(k1, v1)]).map Prod.fst ++ l.map Prod.fst =
          em.map Prod.fst ++ ((k1, v1) :: l).map Prod.fst := by simp
      rw [heq]
      exact h

theorem lookupA_mem {α : Type} (k : String) (v : α) (l : List (String × α))
    (hnd : (l.map Prod.fst).Nodup) (hmem : (k, v) ∈ l) : lookupA k l = some v := by
  induction l with
  | nil => cases hmem
  | cons p l ih =>
    obtain ⟨k1, v1⟩ := p
    rcases List.mem_cons.mp hmem with h1 | h1
    · cases h1.symm
      rw [lookupA, if_pos rfl]
    · have hnd' : (k1 :: l.map Prod.fst).Nodup := by rw [List.map_cons] at hnd; exact hnd
      have hk1 : k1 ≠ k := by
        intro hc
        subst hc
        exact (List.nodup_cons.mp hnd').1 (by simpa using List.mem_map_of_mem Prod.fst h1)
      rw [lookupA, if_neg hk1]
      exact ih (List.nodup_cons.mp hnd').2 h1

theorem lookupA_not_mem {α : Type} (k : String) (l : List (String × α))
    (h : k ∉ l.map Prod.fst) : lookupA k l = none := by
  induction l with
  | nil => rfl
  | cons p l ih =>
    obtain ⟨k1, v1⟩ := p
    have hk1 : k1 ≠ k := fun hc => h (by simp [hc])
    rw [lookupA, if_neg hk1]
    exact ih (fun hc => h (by simp; right; simpa using hc))

/- ### processEdges characterization -/

theorem processFold (ds : List String) (nid : String) (l : List Edge) :
    ∀ (acc : List Edge) (em : List (String × Orig)),
      l.foldl (processStep ds nid) (acc, em) =
        (acc ++ l.map (fun e => (rewriteEdge ds nid e).1),
         emFold em (l.filterMap (fun e =>
           let o := (rewriteEdge ds nid e).2
           if origEmpty o then none else some (e.id, o)))) := by
  induction l with
  | nil => intro acc em; simp [emFold]
  | cons e l ih =>
    intro acc em
    rw [List.foldl_cons]
    by_cases ho : origEmpty (rewriteEdge ds nid e).2 = true
    · have hstep : processStep ds nid (acc, em) e = (acc ++ [(rewriteEdge ds nid e).1], em) := by
        simp [processStep, ho]
      rw [hstep, ih]
      simp [List.filterMap_cons, ho]
    · have ho' : origEmpty (rewriteEdge ds nid e).2 = false := by
        cases h : origEmpty (rewriteEdge ds nid e).2 with
        | false => rfl
        | true => exact absurd h ho
      have hstep : processStep ds nid (acc, em) e =
          (acc ++ [(rewriteEdge ds nid e).1], setA e.id (rewriteEdge ds nid e).2 em) := by
        simp [processStep, ho']
      rw [hstep, ih]
      simp [List.filterMap_cons, ho', emFold]

theorem processEdges_eq (ds : List String) (nid : String) (es : List Edge)
    (em : List (String × Orig)) :
    processEdges ds nid es em =
      (rwKept ds nid es, es.filter (bothIn ds), emFold em (entriesOf ds nid es)) := by
  simp only [processEdges, rwKept, entriesOf]
  rw [processFold]
  simp

/- ### oor lemmas -/

theorem oor_some {α : Type} (x : α) (b : Option α) : oor (some x) b = some x := rfl

theorem oor_none {α : Type} (b : Option α) : oor none b = b := rfl

theorem oor_assoc {α : Type} (a b c : Option α) : oor (oor a b) c = oor a (oor b c) := by
  cases a <;> rfl

/- ### basic forest lemmas -/

theorem allIds_ne_nil {F : Forest} (h : F ≠ .nil) : F.allIds ≠ [] := by
  cases F with
  | nil => exact absurd rfl h
  | cons i c es col r => simp [Forest.allIds]

theorem find?_eq_none_iff (nid : String) (F : Forest) :
    F.find? nid = none ↔ nid ∉ F.allIds := by
  induction F with
  | nil => simp [Forest.find?, Forest.allIds]
  | cons i c es col r ihc ihr =>
    simp only [Forest.find?, Forest.allIds]
    by_cases h1 : i = nid
    · subst h1
      simp
    · rw [if_neg h1]
      cases hc : c.find? nid with
      | some x =>
        have hmem : nid ∈ c.allIds := by
          by_contra hcontra
          rw [ihc.mpr hcontra] at hc
          exact Option.noConfusion hc
        simp only [List.mem_cons, List.mem_append]
        constructor
        · intro h; exact Option.noConfusion h
        · intro h; exact absurd hmem (fun hm => h (Or.inr (Or.inl hm)))
      | none =>
        rw [ihr]
        have hcm : nid ∉ c.allIds := (ihc).mp hc
        simp only [List.mem_cons, List.mem_append]
        constructor
        · intro h hmem
          rcases hmem with h2 | h2 | h2
          · exact h1 h2.symm
          · exact hcm h2
          · exact h h2
        · intro h hmem
          exact h (Or.inr (Or.inr hmem))

theorem csaved_none_of_not_mem (nid : String) (F : Forest) (h : nid ∉ F.allIds) :
    F.csaved nid = none := by
  induction F with
  | nil => rfl
  | cons i c es col r ihc ihr =>
    simp only [Forest.allIds, List.mem_cons, List.mem_append] at h
    push_neg at h
    obtain ⟨h1, h2, h3⟩ := h
    rw [Forest.csaved, ihr h3, if_neg (fun hc => h1 hc.symm), ihc h2]
    rfl

theorem csaved_of_find (nid : String) (F : Forest) (hnd : F.allIds.Nodup) :
    ∀ c es col, F.find? nid = some (c, es, col) → F.csaved nid = some c := by
  induction F with
  | nil => intro c es col h; exact Option.noConfusion h
  | cons i c0 es0 col0 r ihc ihr =>
    intro c es col h
    obtain ⟨hndc, hndr, hic, hir, hdisj⟩ := allIds_nodup_parts hnd
    rw [Forest.find?] at h
    rw [Forest.csaved]
    by_cases h1 : i = nid
    · rw [if_pos h1] at h
      simp only [Option.some.injEq, Prod.mk.injEq] at h
      obtain ⟨hcEq, -, -⟩ := h
      rw [if_pos h1]
      have hmemr : nid ∉ r.allIds := by rw [← h1]; exact hir
      rw [csaved_none_of_not_mem nid r hmemr, hcEq]
      rfl
    · rw [if_neg h1] at h
      rw [if_neg h1]
      cases hcf : Forest.find? nid c0 with
      | some x =>
        rw [hcf] at h
        obtain ⟨c', es', col'⟩ := x
        simp only [Option.some.injEq, Prod.mk.injEq] at h
        obtain ⟨hcEq, hesEq, hcolEq⟩ := h
        have hmem : nid ∈ c0.allIds := by
          by_contra hcontra
          rw [(find?_eq_none_iff nid c0).mpr hcontra] at hcf
          exact Option.noConfusion hcf
        rw [csaved_none_of_not_mem nid r (fun hmr => hdisj nid hmem hmr)]
        rw [ihc hndc c' es' col' hcf, hcEq]
        rfl
      | none =>
        rw [hcf] at h
        rw [csaved_none_of_not_mem nid c0 ((find?_eq_none_iff nid c0).mp hcf)]
        rw [ihr hndr c es col h]
        rfl

/- ### collapse traversal characterization -/

theorem cleanWalk_parts {ds : List String} {nid i : String} {c : Forest} {es : List Edge}
    {col : Bool} {r : Forest}
    (h : (Forest.cons i c es col r).cleanWalk ds nid = true) :
    es.filter (bothIn ds) = [] ∧
    (if i = nid then true else c.cleanWalk ds nid) = true ∧
    r.cleanWalk ds nid = true := by
  rw [Forest.cleanWalk] at h
  simp only [Bool.and_eq_true] at h
  exact ⟨List.isEmpty_iff.mp h.1, h.2.1, h.2.2⟩

theorem collapseWalk_spec (ds : List String) (nid : String) (F : Forest) :
    ∀ st : TravSt, F.cleanWalk ds nid = true →
      collapseWalk ds nid F st =
        (F.cshape ds nid,
         ⟨⟨oor (F.csaved nid) st.entry.nodes, emFold st.entry.edgeMap (F.centries ds nid)⟩,
          st.hid⟩) := by
  induction F with
  | nil =>
    intro st h
    simp [collapseWalk, Forest.cshape, Forest.csaved, Forest.centries, oor, emFold]
  | cons i c es col r ihc ihr =>
    intro st hclean
    obtain ⟨hfil, hbr, hr⟩ := cleanWalk_parts hclean
    rw [collapseWalk]
    by_cases h1 : i = nid
    · simp only [if_pos h1, processEdges_eq, hfil, List.isEmpty_nil, if_true]
      rw [ihr _ hr]
      simp only [Forest.cshape, if_pos h1, Forest.csaved, Forest.centries,
        List.nil_append, emFold_append, oor_assoc, oor_some]
    · have hbc : c.cleanWalk ds nid = true := by
        rw [if_neg h1] at hbr
        exact hbr
      simp only [if_neg h1, processEdges_eq, hfil, List.isEmpty_nil, if_true]
      rw [ihc _ hbc]
      rw [ihr _ hr]
      simp only [Forest.cshape, if_neg h1, Forest.csaved, Forest.centries, emFold_append,
        oor_assoc]

/- ### shape and id lemmas -/

theorem find_sub_ids {nid : String} {F : Forest} {c : Forest} {es : List Edge} {col : Bool}
    (h : F.find? nid = some (c, es, col)) :
    List.Sublist (nid :: c.allIds) F.allIds := by
  induction F with
  | nil => exact Option.noConfusion h
  | cons i c0 es0 col0 r ihc ihr =>
    rw [Forest.find?] at h
    simp only [Forest.allIds]
    by_cases h1 : i = nid
    · rw [if_pos h1] at h
      simp only [Option.some.injEq, Prod.mk.injEq] at h
      obtain ⟨hcEq, -, -⟩ := h
      rw [← h1, hcEq]
      exact (List.sublist_append_left c.allIds r.allIds).cons_cons i
    · rw [if_neg h1] at h
      cases hcf : Forest.find? nid c0 with
      | some x =>
        rw [hcf] at h
        obtain ⟨c', es', col'⟩ := x
        simp only [Option.some.injEq, Prod.mk.injEq] at h
        obtain ⟨hcEq, hesEq, hcolEq⟩ := h
        rw [hcEq, hesEq, hcolEq] at hcf
        exact ((ihc hcf).trans (List.sublist_append_left c0.allIds r.allIds)).cons _
      | none =>
        rw [hcf] at h
        exact ((ihr h).trans (List.sublist_append_right c0.allIds r.allIds)).cons _

theorem find_sub_edges {nid : String} {F : Forest} {c : Forest} {es : List Edge} {col : Bool}
    (h : F.find? nid = some (c, es, col)) :
    List.Sublist (es ++ c.allEdges) F.allEdges := by
  induction F with
  | nil => exact Option.noConfusion h
  | cons i c0 es0 col0 r ihc ihr =>
    rw [Forest.find?] at h
    simp only [Forest.allEdges]
    by_cases h1 : i = nid
    · rw [if_pos h1] at h
      simp only [Option.some.injEq, Prod.mk.injEq] at h
      obtain ⟨hcEq, hesEq, -⟩ := h
      rw [← hcEq, ← hesEq]
      exact (List.Sublist.refl es0).append (List.sublist_append_left c0.allEdges r.allEdges)
    · rw [if_neg h1] at h
      cases hcf : Forest.find? nid c0 with
      | some x =>
        rw [hcf] at h
        obtain ⟨c', es', col'⟩ := x
        simp only [Option.some.injEq, Prod.mk.injEq] at h
        obtain ⟨hcEq, hesEq, hcolEq⟩ := h
        rw [hcEq, hesEq, hcolEq] at hcf
        refine ((ihc hcf).trans ?_).trans (List.sublist_append_right es0 (c0.allEdges ++ r.allEdges))
        exact List.sublist_append_left c0.allEdges r.allEdges
      | none =>
        rw [hcf] at h
        refine ((ihr h).trans ?_).trans (List.sublist_append_right es0 (c0.allEdges ++ r.allEdges))
        exact List.sublist_append_right c0.allEdges r.allEdges

theorem cshape_allIds_sublist (ds : List String) (nid : String) (F : Forest) :
    List.Sublist (F.cshape ds nid).allIds F.allIds := by
  induction F with
  | nil => simp [Forest.cshape]
  | cons i c es col r ihc ihr =>
    rw [Forest.cshape]
    by_cases h1 : i = nid
    · rw [if_pos h1]
      simp only [Forest.allIds]
      refine List.Sublist.cons_cons i ?_
      exact (List.nil_append r.allIds ▸ ihr.trans (List.sublist_append_right c.allIds r.allIds) : _)
    · rw [if_neg h1]
      simp only [Forest.allIds]
      exact (ihc.append ihr).cons_cons i

theorem mexp_allIds (ds : List String) (nid : String) (F : Forest) :
    (F.mexp ds nid).allIds = F.allIds := by
  induction F with
  | nil => rfl
  | cons i c es col r ihc ihr =>
    rw [Forest.mexp]
    by_cases h1 : i = nid
    · rw [if_pos h1]
      simp only [Forest.allIds, ihr]
    · rw [if_neg h1]
      simp only [Forest.allIds, ihc, ihr]

theorem cshape_eq_mexp_of_not_mem (ds : List String) (nid : String) (F : Forest)
    (h : nid ∉ F.allIds) : F.cshape ds nid = F.mexp ds nid := by
  induction F with
  | nil => rfl
  | cons i c es col r ihc ihr =>
    simp only [Forest.allIds, List.mem_cons, List.mem_append] at h
    push_neg at h
    obtain ⟨h1, h2, h3⟩ := h
    rw [Forest.cshape, Forest.mexp, if_neg (fun hc => h1 hc.symm), if_neg (fun hc => h1 hc.symm)]
    rw [ihc h2, ihr h3]

theorem updateFirst_not_mem (nid : String) (x : Forest) (F : Forest)
    (h : nid ∉ F.allIds) : updateFirst nid x F = (F, false) := by
  induction F with
  | nil => rfl
  | cons i c es col r ihc ihr =>
    simp only [Forest.allIds, List.mem_cons, List.mem_append] at h
    push_neg at h
    obtain ⟨h1, h2, h3⟩ := h
    rw [updateFirst, if_neg (fun hc => h1 hc.symm)]
    rw [ihc h2, ihr h3]
    simp

theorem updateFirst_cshape (ds : List String) (nid : String) (F : Forest)
    (hnd : F.allIds.Nodup) :
    ∀ c0 es0 col0, F.find? nid = some (c0, es0, col0) →
      updateFirst nid c0 (F.cshape ds nid) = (F.mexp ds nid, true) := by
  induction F with
  | nil => intro c0 es0 col0 h; exact Option.noConfusion h
  | cons i c es col r ihc ihr =>
    intro c0 es0 col0 h
    obtain ⟨hndc, hndr, hic, hir, hdisj⟩ := allIds_nodup_parts hnd
    rw [Forest.find?] at h
    by_cases h1 : i = nid
    · rw [if_pos h1] at h
      simp only [Option.some.injEq, Prod.mk.injEq] at h
      obtain ⟨hcEq, -, -⟩ := h
      rw [Forest.cshape, if_pos h1, updateFirst, if_pos h1, Forest.mexp, if_pos h1]
      have hirn : nid ∉ r.allIds := h1 ▸ hir
      rw [cshape_eq_mexp_of_not_mem ds nid r hirn, hcEq]
    · rw [if_neg h1] at h
      rw [Forest.cshape, if_neg h1, updateFirst, if_neg h1, Forest.mexp, if_neg h1]
      cases hcf : Forest.find? nid c with
      | some xx =>
        rw [hcf] at h
        obtain ⟨c', es', col'⟩ := xx
        simp only [Option.some.injEq, Prod.mk.injEq] at h
        obtain ⟨hcEq, -, -⟩ := h
        rw [hcEq] at hcf
        have hmem : nid ∈ c.allIds := by
          by_contra hcontra
          rw [(find?_eq_none_iff nid c).mpr hcontra] at hcf
          exact Option.noConfusion hcf
        rw [ihc hndc c0 es' col' hcf]
        have hirn : nid ∉ r.allIds := fun hmr => hdisj nid hmem hmr
        rw [cshape_eq_mexp_of_not_mem ds nid r hirn]
        simp
      | none =>
        rw [hcf] at h
        have hcm : nid ∉ c.allIds := (find?_eq_none_iff nid c).mp hcf
        have hcm2 : nid ∉ (c.cshape ds nid).allIds :=
          fun hmem => hcm ((cshape_allIds_sublist ds nid c).mem hmem)
        rw [updateFirst_not_mem nid c0 (c.cshape ds nid) hcm2]
        rw [ihr hndr c0 es0 col0 h]
        rw [cshape_eq_mexp_of_not_mem ds nid c hcm]
        simp

theorem mexp_find? (ds : List String) (nid : String) (F : Forest) :
    ∀ c0 es0 col0, F.find? nid = some (c0, es0, col0) →
      (F.mexp ds nid).find? nid = some (c0, rwKept ds nid es0, false) := by
  induction F with
  | nil => intro c0 es0 col0 h; exact Option.noConfusion h
  | cons i c es col r ihc ihr =>
    intro c0 es0 col0 h
    rw [Forest.find?] at h
    rw [Forest.mexp]
    by_cases h1 : i = nid
    · rw [if_pos h1] at h
      simp only [Option.some.injEq, Prod.mk.injEq] at h
      obtain ⟨hcEq, hesEq, -⟩ := h
      rw [if_pos h1, Forest.find?, if_pos h1, hcEq, hesEq]
    · rw [if_neg h1] at h
      rw [if_neg h1, Forest.find?, if_neg h1]
      cases hcf : Forest.find? nid c with
      | some xx =>
        rw [hcf] at h
        obtain ⟨c', es', col'⟩ := xx
        simp only [Option.some.injEq, Prod.mk.injEq] at h
        obtain ⟨hcEq, hesEq, -⟩ := h
        rw [ihc c' es' col' hcf, hcEq, hesEq]
      | none =>
        rw [hcf] at h
        have hcm : nid ∉ c.allIds := (find?_eq_none_iff nid c).mp hcf
        have hcm2 : nid ∉ (c.mexp ds nid).allIds := by rw [mexp_allIds]; exact hcm
        rw [(find?_eq_none_iff nid (c.mexp ds nid)).mpr hcm2]
        exact ihr c0 es0 col0 h

/- ### walked and skipped edge-lists -/

theorem perm_middle_swap {α : Type} (a b c : List α) :
    List.Perm (a ++ (b ++ c)) (b ++ (a ++ c)) := by
  rw [← List.append_assoc, ← List.append_assoc]
  exact List.Perm.append_right c List.perm_append_comm

theorem allEdges_perm_w_h (nid : String) (F : Forest) :
    List.Perm F.allEdges (F.wEdges nid ++ F.hEdges nid) := by
  induction F with
  | nil => simp [Forest.allEdges, Forest.wEdges, Forest.hEdges]
  | cons i c es col r ihc ihr =>
    rw [Forest.allEdges, Forest.wEdges, Forest.hEdges]
    by_cases h1 : i = nid
    · rw [if_pos h1, if_pos h1]
      simp only [List.nil_append, List.append_assoc]
      refine List.Perm.append_left es ?_
      exact (List.Perm.append_left c.allEdges ihr).trans
        (perm_middle_swap c.allEdges (r.wEdges nid) (r.hEdges nid))
    · rw [if_neg h1, if_neg h1]
      simp only [List.append_assoc]
      refine List.Perm.append_left es ?_
      refine (ihc.append ihr).trans ?_
      rw [List.append_assoc]
      exact List.Perm.append_left (c.wEdges nid)
        (perm_middle_swap (c.hEdges nid) (r.wEdges nid) (r.hEdges nid))

theorem hEdges_sub_of_find {nid : String} {F : Forest} {c : Forest} {es : List Edge} {col : Bool}
    (h : F.find? nid = some (c, es, col)) :
    List.Sublist c.allEdges (F.hEdges nid) := by
  induction F with
  | nil => exact Option.noConfusion h
  | cons i c0 es0 col0 r ihc ihr =>
    rw [Forest.find?] at h
    rw [Forest.hEdges]
    by_cases h1 : i = nid
    · rw [if_pos h1] at h
      simp only [Option.some.injEq, Prod.mk.injEq] at h
      obtain ⟨hcEq, -, -⟩ := h
      rw [if_pos h1, hcEq]
      exact List.sublist_append_left c.allEdges (r.hEdges nid)
    · rw [if_neg h1] at h
      rw [if_neg h1]
      cases hcf : Forest.find? nid c0 with
      | some x =>
        rw [hcf] at h
        obtain ⟨c', es', col'⟩ := x
        simp only [Option.some.injEq, Prod.mk.injEq] at h
        obtain ⟨hcEq, hesEq, hcolEq⟩ := h
        rw [hcEq, hesEq, hcolEq] at hcf
        exact (ihc hcf).trans (List.sublist_append_left (c0.hEdges nid) (r.hEdges nid))
      | none =>
        rw [hcf] at h
        exact (ihr h).trans (List.sublist_append_right (c0.hEdges nid) (r.hEdges nid))

/- ### edge-map entry keys and membership -/

theorem filterMap_keys_sublist {α : Type} (key : α → String) (g : α → Option (String × Orig))
    (hg : ∀ e p, g e = some p → p.1 = key e) (l : List α) :
    List.Sublist ((l.filterMap g).map Prod.fst) (l.map key) := by
  induction l with
  | nil => simp
  | cons e l ih =>
    rw [List.filterMap_cons, List.map_cons]
    cases hge : g e with
    | none => exact ih.trans (List.sublist_cons_self (key e) (l.map key))
    | some p =>
      rw [List.map_cons, hg e p hge]
      exact ih.cons_cons (key e)

theorem entriesOf_keys (ds : List String) (nid : String) (es : List Edge) :
    List.Sublist ((entriesOf ds nid es).map Prod.fst) (es.map Edge.id) := by
  rw [entriesOf]
  refine (filterMap_keys_sublist Edge.id _ ?_ _).trans ((List.filter_sublist es).map Edge.id)
  intro e p h
  simp only at h
  by_cases ho : origEmpty (rewriteEdge ds nid e).2 = true
  · rw [if_pos ho] at h
    exact Option.noConfusion h
  · rw [if_neg ho] at h
    cases h
    rfl

theorem centries_keys (ds : List String) (nid : String) (F : Forest) :
    List.Sublist ((F.centries ds nid).map Prod.fst) ((F.wEdges nid).map Edge.id) := by
  induction F with
  | nil => simp [Forest.centries, Forest.wEdges]
  | cons i c es col r ihc ihr =>
    rw [Forest.centries, Forest.wEdges]
    simp only [List.map_append]
    by_cases h1 : i = nid
    · rw [if_pos h1, if_pos h1]
      exact (entriesOf_keys ds nid es).append ((List.nil_sublist _).append ihr)
    · rw [if_neg h1, if_neg h1]
      exact (entriesOf_keys ds nid es).append (ihc.append ihr)

theorem entriesOf_mem {ds : List String} {nid : String} {es : List Edge} {e : Edge}
    (he : e ∈ es) (hb : bothIn ds e = false)
    (ho : origEmpty (rewriteEdge ds nid e).2 = false) :
    (e.id, (rewriteEdge ds nid e).2) ∈ entriesOf ds nid es := by
  refine List.mem_filterMap.mpr ⟨e, List.mem_filter.mpr ⟨he, by rw [hb]; rfl⟩, ?_⟩
  simp [ho]

theorem centries_mem {ds : List String} {nid : String} {F : Forest} {e : Edge}
    (he : e ∈ F.wEdges nid) (hb : bothIn ds e = false)
    (ho : origEmpty (rewriteEdge ds nid e).2 = false) :
    (e.id, (rewriteEdge ds nid e).2) ∈ F.centries ds nid := by
  induction F with
  | nil => cases he
  | cons i c es col r ihc ihr =>
    rw [Forest.wEdges] at he
    rw [Forest.centries]
    rcases List.mem_append.mp he with h1 | h1
    · exact List.mem_append.mpr (Or.inl (entriesOf_mem h1 hb ho))
    · rcases List.mem_append.mp h1 with h2 | h2
      · refine List.mem_append.mpr (Or.inr (List.mem_append.mpr (Or.inl ?_)))
        by_cases hc1 : i = nid
        · rw [if_pos hc1] at h2
          cases h2
        · rw [if_neg hc1] at h2
          rw [if_neg hc1]
          exact ihc h2
      · exact List.mem_append.mpr (Or.inr (List.mem_append.mpr (Or.inr (ihr h2))))

theorem entriesOf_key_src {ds : List String} {nid : String} {es : List Edge}
    {k : String} {o : Orig} (h : (k, o) ∈ entriesOf ds nid es) :
    ∃ e ∈ es, e.id = k ∧ bothIn ds e = false ∧
      origEmpty (rewriteEdge ds nid e).2 = false := by
  obtain ⟨e, hef, hge⟩ := List.mem_filterMap.mp h
  have hmem := (List.mem_filter.mp hef).1
  have hb := (List.mem_filter.mp hef).2
  have hb' : bothIn ds e = false := by
    cases hbb : bothIn ds e with
    | false => rfl
    | true => rw [hbb] at hb; exact Bool.noConfusion hb
  simp only at hge
  by_cases ho : origEmpty (rewriteEdge ds nid e).2 = true
  · rw [if_pos ho] at hge
    exact Option.noConfusion hge
  · rw [if_neg ho] at hge
    have hid : e.id = k := by
      have := congrArg (fun x => Option.map Prod.fst x) hge
      simpa using this
    refine ⟨e, hmem, hid, hb', ?_⟩
    cases hoe : origEmpty (rewriteEdge ds nid e).2 with
    | false => rfl
    | true => exact absurd hoe ho

theorem centries_key_src {ds : List String} {nid : String} {F : Forest}
    {k : String} {o : Orig} (h : (k, o) ∈ F.centries ds nid) :
    ∃ e ∈ F.wEdges nid, e.id = k ∧ bothIn ds e = false ∧
      origEmpty (rewriteEdge ds nid e).2 = false := by
  induction F with
  | nil => cases h
  | cons i c es col r ihc ihr =>
    rw [Forest.centries] at h
    rcases List.mem_append.mp h with h1 | h1
    · obtain ⟨e, he, hrest⟩ := entriesOf_key_src h1
      exact ⟨e, by rw [Forest.wEdges]; exact List.mem_append.mpr (Or.inl he), hrest⟩
    · rcases List.mem_append.mp h1 with h2 | h2
      · by_cases hc1 : i = nid
        · rw [if_pos hc1] at h2
          cases h2
        · rw [if_neg hc1] at h2
          obtain ⟨e, he, hrest⟩ := ihc h2
          refine ⟨e, ?_, hrest⟩
          rw [Forest.wEdges]
          exact List.mem_append.mpr (Or.inr (List.mem_append.mpr (Or.inl (by rw [if_neg hc1]; exact he))))
      · obtain ⟨e, he, hrest⟩ := ihr h2
        refine ⟨e, ?_, hrest⟩
        rw [Forest.wEdges]
        exact List.mem_append.mpr (Or.inr (List.mem_append.mpr (Or.inr he)))

theorem cleanWalk_wEdges {ds : List String} {nid : String} {F : Forest}
    (h : F.cleanWalk ds nid = true) :
    ∀ e ∈ F.wEdges nid, bothIn ds e = false := by
  induction F with
  | nil => intro e he; cases he
  | cons i c es col r ihc ihr =>
    intro e he
    obtain ⟨hfil, hbr, hr⟩ := cleanWalk_parts h
    rw [Forest.wEdges] at he
    rcases List.mem_append.mp he with h1 | h1
    · have := List.filter_eq_nil_iff.mp hfil e h1
      cases hbb : bothIn ds e with
      | false => rfl
      | true => exact absurd hbb this
    · rcases List.mem_append.mp h1 with h2 | h2
      · by_cases hc1 : i = nid
        · rw [if_pos hc1] at h2
          cases h2
        · rw [if_neg hc1] at h2
          rw [if_neg hc1] at hbr
          exact ihc hbr e h2
      · exact ihr hr e h2

/- ### reverting rewritten edges -/

theorem revertEdge_of_lookup_none {em : List (String × Orig)} {e : Edge}
    (h : lookupA e.id em = none) : revertEdge em e = e := by
  rw [revertEdge, h]

theorem filter_not_both_self {ds : List String} {es : List Edge}
    (h : es.filter (bothIn ds) = []) :
    es.filter (fun e => !bothIn ds e) = es := by
  rw [List.filter_eq_self]
  intro e he
  have hne := List.filter_eq_nil_iff.mp h e he
  cases hb : bothIn ds e with
  | false => rfl
  | true => exact absurd hb hne

theorem rw1_id_of_empty {ds : List String} {nid : String} {e : Edge}
    (h : origEmpty (rewriteEdge ds nid e).2 = true) :
    (rewriteEdge ds nid e).1 = e := by
  cases hs : ds.contains e.source <;> cases ht : ds.contains e.target <;>
    simp_all [rewriteEdge, origEmpty]

theorem revertEdge_rw {ds : List String} {nid : String} {e : Edge} {em : List (String × Orig)}
    (hlk : lookupA e.id em =
      (if origEmpty (rewriteEdge ds nid e).2 then none else some (rewriteEdge ds nid e).2))
    (hsrc : ds.contains e.source = true → e.source ≠ "")
    (htgt : ds.contains e.target = true → e.target ≠ "") :
    revertEdge em (rewriteEdge ds nid e).1 = e := by
  cases hs : ds.contains e.source <;> cases ht : ds.contains e.target
  · have hs' : e.source ∉ ds := (contains_false_iff ds e.source).mp hs
    have ht' : e.target ∉ ds := (contains_false_iff ds e.target).mp ht
    have h0 : (rewriteEdge ds nid e).1 = e := by simp [rewriteEdge, hs', ht']
    have h1 : origEmpty (rewriteEdge ds nid e).2 = true := by
      simp [rewriteEdge, origEmpty, hs', ht']
    rw [h1] at hlk
    simp only [if_true] at hlk
    rw [h0]
    exact revertEdge_of_lookup_none hlk
  · have hs' : e.source ∉ ds := (contains_false_iff ds e.source).mp hs
    have ht' : e.target ∈ ds := (contains_true_iff ds e.target).mp ht
    have h0 : (rewriteEdge ds nid e).1 = { e with target := nid } := by
      simp [rewriteEdge, hs', ht']
    have h2 : (rewriteEdge ds nid e).2 = ⟨none, some e.target⟩ := by
      simp [rewriteEdge, hs', ht']
    have h1 : origEmpty (rewriteEdge ds nid e).2 = false := by rw [h2]; rfl
    rw [h1] at hlk
    simp only [Bool.false_eq_true, if_false] at hlk
    rw [h2] at hlk
    rw [h0, revertEdge]
    have hid : ({ e with target := nid } : Edge).id = e.id := rfl
    rw [hid, hlk]
    simp [htgt ht]
  · have hs' : e.source ∈ ds := (contains_true_iff ds e.source).mp hs
    have ht' : e.target ∉ ds := (contains_false_iff ds e.target).mp ht
    have h0 : (rewriteEdge ds nid e).1 = { e with source := nid } := by
      simp [rewriteEdge, hs', ht']
    have h2 : (rewriteEdge ds nid e).2 = ⟨some e.source, none⟩ := by
      simp [rewriteEdge, hs', ht']
    have h1 : origEmpty (rewriteEdge ds nid e).2 = false := by rw [h2]; rfl
    rw [h1] at hlk
    simp only [Bool.false_eq_true, if_false] at hlk
    rw [h2] at hlk
    rw [h0, revertEdge]
    have hid : ({ e with source := nid } : Edge).id = e.id := rfl
    rw [hid, hlk]
    simp [hsrc hs]
  · have hs' : e.source ∈ ds := (contains_true_iff ds e.source).mp hs
    have ht' : e.target ∈ ds := (contains_true_iff ds e.target).mp ht
    have h0 : (rewriteEdge ds nid e).1 = { e with source := nid, target := nid } := by
      simp [rewriteEdge, hs', ht']
    have h2 : (rewriteEdge ds nid e).2 = ⟨some e.source, some e.target⟩ := by
      simp [rewriteEdge, hs', ht']
    have h1 : origEmpty (rewriteEdge ds nid e).2 = false := by rw [h2]; rfl
    rw [h1] at hlk
    simp only [Bool.false_eq_true, if_false] at hlk
    rw [h2] at hlk
    rw [h0, revertEdge]
    have hid : ({ e with source := nid, target := nid } : Edge).id = e.id := rfl
    rw [hid, hlk]
    simp [hsrc hs, htgt ht]

theorem map_id_of_mem {α : Type} (l : List α) (f : α → α) (h : ∀ a ∈ l, f a = a) :
    l.map f = l := by
  induction l with
  | nil => rfl
  | cons a l ih =>
    rw [List.map_cons, h a (List.mem_cons_self a l), ih (fun b hb => h b (List.mem_cons_of_mem a hb))]

theorem revertWalk_id {em : List (String × Orig)} {F : Forest}
    (h : ∀ e ∈ F.allEdges, revertEdge em e = e) : revertWalk em F = F := by
  induction F with
  | nil => rfl
  | cons i c es col r ihc ihr =>
    rw [revertWalk]
    rw [map_id_of_mem es (revertEdge em) (fun e he =>
      h e (by rw [Forest.allEdges]; exact List.mem_append.mpr (Or.inl he)))]
    rw [ihc (fun e he => h e (by
      rw [Forest.allEdges]
      exact List.mem_append.mpr (Or.inr (List.mem_append.mpr (Or.inl he)))))]
    rw [ihr (fun e he => h e (by
      rw [Forest.allEdges]
      exact List.mem_append.mpr (Or.inr (List.mem_append.mpr (Or.inr he)))))]

/- ### collapsed flags along the walk -/

theorem walkColOK_not_mem (nid : String) (F : Forest) (h : nid ∉ F.allIds) :
    F.walkColOK nid = true := by
  induction F with
  | nil => rfl
  | cons i c es col r ihc ihr =>
    simp only [Forest.allIds, List.mem_cons, List.mem_append] at h
    push_neg at h
    obtain ⟨h1, h2, h3⟩ := h
    rw [Forest.walkColOK, if_neg (fun hc => h1 hc.symm), ihc h2, ihr h3]
    rfl

theorem walkColOK_of_find (nid : String) (F : Forest) (hnd : F.allIds.Nodup) :
    ∀ c es, F.find? nid = some (c, es, false) → F.walkColOK nid = true := by
  induction F with
  | nil => intro c es h; exact Option.noConfusion h
  | cons i c0 es0 col0 r ihc ihr =>
    intro c es h
    obtain ⟨hndc, hndr, hic, hir, hdisj⟩ := allIds_nodup_parts hnd
    rw [Forest.find?] at h
    rw [Forest.walkColOK]
    by_cases h1 : i = nid
    · rw [if_pos h1] at h
      simp only [Option.some.injEq, Prod.mk.injEq] at h
      obtain ⟨-, -, hcol⟩ := h
      rw [if_pos h1, hcol]
      rw [walkColOK_not_mem nid r (h1 ▸ hir)]
      rfl
    · rw [if_neg h1] at h
      rw [if_neg h1]
      cases hcf : Forest.find? nid c0 with
      | some x =>
        rw [hcf] at h
        obtain ⟨c', es', col'⟩ := x
        simp only [Option.some.injEq, Prod.mk.injEq] at h
        obtain ⟨hcEq, hesEq, hcolEq⟩ := h
        rw [hcEq, hesEq, hcolEq] at hcf
        have hmem : nid ∈ c0.allIds := by
          by_contra hcontra
          rw [(find?_eq_none_iff nid c0).mpr hcontra] at hcf
          exact Option.noConfusion hcf
        rw [ihc hndc c es hcf, walkColOK_not_mem nid r (fun hmr => hdisj nid hmem hmr)]
        rfl
      | none =>
        rw [hcf] at h
        rw [walkColOK_not_mem nid c0 ((find?_eq_none_iff nid c0).mp hcf), ihr hndr c es h]
        rfl

/- ### restoring hidden edges -/

theorem restoreWalk_empty (nid : String) (F : Forest) (re : List Edge) :
    restoreWalk nid F (re, []) = (re, []) := by
  induction F with
  | nil => rfl
  | cons i c es col r ihc ihr =>
    rw [restoreWalk]
    simp only [lookupA, Option.isSome_none, Bool.false_and, Bool.false_eq_true, if_false]
    rw [ihc, ihr]

/- ### expand's revert traversal undoes collapse's rewrite -/

theorem revertWalk_mexp {ds : List String} {nid : String} {em : List (String × Orig)} {F : Forest}
    (hclean : F.cleanWalk ds nid = true)
    (hcol : F.walkColOK nid = true)
    (hw : ∀ e ∈ F.wEdges nid, revertEdge em (rewriteEdge ds nid e).1 = e)
    (hh : ∀ e ∈ F.hEdges nid, revertEdge em e = e) :
    revertWalk em (F.mexp ds nid) = F := by
  induction F with
  | nil => rfl
  | cons i c es col r ihc ihr =>
    obtain ⟨hfil, hbr, hr⟩ := cleanWalk_parts hclean
    have hcolparts : (if i = nid then !col else c.walkColOK nid) = true ∧ r.walkColOK nid = true := by
      rw [Forest.walkColOK] at hcol
      simp only [Bool.and_eq_true] at hcol
      exact hcol
    have hes : (rwKept ds nid es).map (revertEdge em) = es := by
      rw [rwKept, filter_not_both_self hfil, List.map_map]
      exact map_id_of_mem es _ (fun e he =>
        hw e (by rw [Forest.wEdges]; exact List.mem_append.mpr (Or.inl he)))
    have hwr : ∀ e ∈ r.wEdges nid, revertEdge em (rewriteEdge ds nid e).1 = e := by
      intro e he
      refine hw e ?_
      rw [Forest.wEdges]
      exact List.mem_append.mpr (Or.inr (List.mem_append.mpr (Or.inr he)))
    have hhr : ∀ e ∈ r.hEdges nid, revertEdge em e = e := by
      intro e he
      refine hh e ?_
      rw [Forest.hEdges]
      exact List.mem_append.mpr (Or.inr he)
    rw [Forest.mexp]
    by_cases h1 : i = nid
    · rw [if_pos h1, revertWalk, hes]
      have hcol1 : col = false := by
        rw [if_pos h1] at hcolparts
        cases hcc : col with
        | false => rfl
        | true => rw [hcc] at hcolparts; exact absurd hcolparts.1 (by simp)
      have hcw : revertWalk em c = c := by
        refine revertWalk_id (fun e he => hh e ?_)
        rw [Forest.hEdges, if_pos h1]
        exact List.mem_append.mpr (Or.inl he)
      rw [hcw, ihr hr hcolparts.2 hwr hhr, hcol1]
    · rw [if_neg h1, revertWalk, hes]
      have hbc : c.cleanWalk ds nid = true := by rw [if_neg h1] at hbr; exact hbr
      have hcolc : c.walkColOK nid = true := by
        have := hcolparts.1
        rw [if_neg h1] at this
        exact this
      have hwc : ∀ e ∈ c.wEdges nid, revertEdge em (rewriteEdge ds nid e).1 = e := by
        intro e he
        refine hw e ?_
        rw [Forest.wEdges]
        exact List.mem_append.mpr (Or.inr (List.mem_append.mpr (Or.inl (by rw [if_neg h1]; exact he))))
      have hhc : ∀ e ∈ c.hEdges nid, revertEdge em e = e := by
        intro e he
        refine hh e ?_
        rw [Forest.hEdges]
        exact List.mem_append.mpr (Or.inl (by rw [if_neg h1]; exact he))
      rw [ihc hbc hcolc hwc hhc, ihr hr hcolparts.2 hwr hhr]

/- ### collapse characterization -/

theorem global_ids_nodup (esRoot : List Edge) (F : Forest) (nid : String)
    (hndE : ((esRoot ++ F.allEdges).map Edge.id).Nodup) :
    (((esRoot ++ F.wEdges nid) ++ F.hEdges nid).map Edge.id).Nodup := by
  have hperm : List.Perm (esRoot ++ F.allEdges) ((esRoot ++ F.wEdges nid) ++ F.hEdges nid) := by
    refine (List.Perm.append_left esRoot (allEdges_perm_w_h nid F)).trans ?_
    rw [List.append_assoc]
  exact (hperm.map Edge.id).nodup_iff.mp hndE

theorem em_keys_nodup (ds : List String) (nid : String) (esRoot : List Edge) (F : Forest)
    (hndE : ((esRoot ++ F.allEdges).map Edge.id).Nodup) :
    ((entriesOf ds nid esRoot ++ F.centries ds nid).map Prod.fst).Nodup := by
  have hsub : List.Sublist ((entriesOf ds nid esRoot ++ F.centries ds nid).map Prod.fst)
      ((esRoot ++ F.wEdges nid).map Edge.id) := by
    rw [List.map_append, List.map_append]
    exact (entriesOf_keys ds nid esRoot).append (centries_keys ds nid F)
  have hnd2 := global_ids_nodup esRoot F nid hndE
  rw [List.map_append] at hnd2
  exact hsub.nodup (List.nodup_append.mp hnd2).1

theorem isEmpty_false_of_ne_nil {α : Type} {l : List α} (h : l ≠ []) : l.isEmpty = false := by
  cases l with
  | nil => exact absurd rfl h
  | cons a l => rfl

theorem collapse_spec (G : Graph) (st : RState) (nid : String)
    (c0 : Forest) (es0 : List Edge) (col0 : Bool)
    (hfind : G.nodes.find? nid = some (c0, es0, col0))
    (hne : c0 ≠ Forest.nil)
    (hndN : G.nodes.allIds.Nodup)
    (hndE : ((G.edges ++ G.nodes.allEdges).map Edge.id).Nodup)
    (hclean : G.nodes.cleanWalk c0.allIds nid = true) :
    collapse G st nid =
      (⟨G.nodes.cshape c0.allIds nid, rwKept c0.allIds nid G.edges⟩,
       ⟨setA nid ⟨some c0, entriesOf c0.allIds nid G.edges ++ G.nodes.centries c0.allIds nid⟩
          st.tracker,
        if (G.edges.filter (bothIn c0.allIds)).isEmpty then st.hidden
        else setA nid (G.edges.filter (bothIn c0.allIds)) st.hidden⟩) := by
  have hdsne : c0.allIds.isEmpty = false := isEmpty_false_of_ne_nil (allIds_ne_nil hne)
  rw [collapse]
  rw [hfind]
  simp only [hdsne, Bool.false_eq_true, if_false]
  rw [processEdges_eq]
  rw [collapseWalk_spec c0.allIds nid G.nodes _ hclean]
  rw [csaved_of_find nid G.nodes hndN c0 es0 col0 hfind]
  have hem : emFold (emFold [] (entriesOf c0.allIds nid G.edges)) (G.nodes.centries c0.allIds nid) =
      entriesOf c0.allIds nid G.edges ++ G.nodes.centries c0.allIds nid := by
    rw [← emFold_append]
    have := emFold_fresh [] (entriesOf c0.allIds nid G.edges ++ G.nodes.centries c0.allIds nid) ?hnd
    · rw [this]
      rfl
    case hnd =>
      simp only [List.map_nil, List.nil_append]
      exact em_keys_nodup c0.allIds nid G.edges G.nodes hndE
  rw [hem]
  rw [setA_setA_same]
  by_cases hRH : (G.edges.filter (bothIn c0.allIds)).isEmpty = true
  · simp only [hRH, if_true]
    rfl
  · have hRH' : (G.edges.filter (bothIn c0.allIds)).isEmpty = false := by
      cases h : (G.edges.filter (bothIn c0.allIds)).isEmpty with
      | false => rfl
      | true => exact absurd h hRH
    simp only [hRH', Bool.false_eq_true, if_false]
    rfl

/- ### edge-map lookups in the full collapse edge map -/

theorem combined_inj (esRoot : List Edge) (F : Forest) (nid : String)
    (hndE : ((esRoot ++ F.allEdges).map Edge.id).Nodup) :
    ∀ e ∈ esRoot ++ F.wEdges nid, ∀ e' ∈ esRoot ++ F.wEdges nid, e.id = e'.id → e = e' := by
  have h1 := global_ids_nodup esRoot F nid hndE
  rw [List.map_append] at h1
  have h2 := (List.nodup_append.mp h1).1
  intro e he e' he' hid
  exact List.inj_on_of_nodup_map h2 he he' hid

theorem em_lookup_touched (esRoot : List Edge) (F : Forest) (ds : List String) (nid : String)
    (hndE : ((esRoot ++ F.allEdges).map Edge.id).Nodup)
    (e : Edge) (hmem : e ∈ esRoot ++ F.wEdges nid) (hb : bothIn ds e = false) :
    lookupA e.id (entriesOf ds nid esRoot ++ F.centries ds nid) =
      (if origEmpty (rewriteEdge ds nid e).2 then none else some (rewriteEdge ds nid e).2) := by
  by_cases ho : origEmpty (rewriteEdge ds nid e).2 = true
  · rw [if_pos ho]
    refine lookupA_not_mem e.id _ ?_
    intro hk
    obtain ⟨p, hp, hpk⟩ := List.mem_map.mp hk
    obtain ⟨k, o⟩ := p
    have hpk2 : k = e.id := hpk
    rcases List.mem_append.mp hp with h1 | h1
    · obtain ⟨e', he', hid', hb', ho'⟩ := entriesOf_key_src h1
      have : e = e' := combined_inj esRoot F nid hndE e hmem e'
        (List.mem_append.mpr (Or.inl he')) ((hid'.trans hpk2).symm)
      rw [← this] at ho'
      rw [ho] at ho'
      exact Bool.noConfusion ho'
    · obtain ⟨e', he', hid', hb', ho'⟩ := centries_key_src h1
      have : e = e' := combined_inj esRoot F nid hndE e hmem e'
        (List.mem_append.mpr (Or.inr he')) ((hid'.trans hpk2).symm)
      rw [← this] at ho'
      rw [ho] at ho'
      exact Bool.noConfusion ho'
  · have ho' : origEmpty (rewriteEdge ds nid e).2 = false := by
      cases h : origEmpty (rewriteEdge ds nid e).2 with
      | false => rfl
      | true => exact absurd h ho
    rw [if_neg ho]
    refine lookupA_mem e.id _ _ (em_keys_nodup ds nid esRoot F hndE) ?_
    rcases List.mem_append.mp hmem with h1 | h1
    · exact List.mem_append.mpr (Or.inl (entriesOf_mem h1 hb ho'))
    · exact List.mem_append.mpr (Or.inr (centries_mem h1 hb ho'))

theorem em_lookup_none_internal (esRoot : List Edge) (F : Forest) (ds : List String) (nid : String)
    (hndE : ((esRoot ++ F.allEdges).map Edge.id).Nodup)
    (e : Edge) (hmem : e ∈ esRoot ++ F.wEdges nid) (hb : bothIn ds e = true) :
    lookupA e.id (entriesOf ds nid esRoot ++ F.centries ds nid) = none := by
  refine lookupA_not_mem e.id _ ?_
  intro hk
  obtain ⟨p, hp, hpk⟩ := List.mem_map.mp hk
  obtain ⟨k, o⟩ := p
  have hpk2 : k = e.id := hpk
  rcases List.mem_append.mp hp with h1 | h1
  · obtain ⟨e', he', hid', hb', ho'⟩ := entriesOf_key_src h1
    have : e = e' := combined_inj esRoot F nid hndE e hmem e'
      (List.mem_append.mpr (Or.inl he')) ((hid'.trans hpk2).symm)
    rw [← this] at hb'
    rw [hb] at hb'
    exact Bool.noConfusion hb'
  · obtain ⟨e', he', hid', hb', ho'⟩ := centries_key_src h1
    have : e = e' := combined_inj esRoot F nid hndE e hmem e'
      (List.mem_append.mpr (Or.inr he')) ((hid'.trans hpk2).symm)
    rw [← this] at hb'
    rw [hb] at hb'
    exact Bool.noConfusion hb'

theorem em_lookup_none_hidden (esRoot : List Edge) (F : Forest) (ds : List String) (nid : String)
    (hndE : ((esRoot ++ F.allEdges).map Edge.id).Nodup)
    (e : Edge) (hmem : e ∈ F.hEdges nid) :
    lookupA e.id (entriesOf ds nid esRoot ++ F.centries ds nid) = none := by
  have h1 := global_ids_nodup esRoot F nid hndE
  rw [List.map_append] at h1
  have hdisj := (List.nodup_append.mp h1).2.2
  refine lookupA_not_mem e.id _ ?_
  intro hk
  have hsub : List.Sublist ((entriesOf ds nid esRoot ++ F.centries ds nid).map Prod.fst)
      ((esRoot ++ F.wEdges nid).map Edge.id) := by
    rw [List.map_append, List.map_append]
    exact (entriesOf_keys ds nid esRoot).append (centries_keys ds nid F)
  exact hdisj (hsub.subset hk) (List.mem_map_of_mem Edge.id hmem)

/- ### Claim C2 assembly -/

theorem edges_inj (G : Graph)
    (hndE : ((G.edges ++ G.nodes.allEdges).map Edge.id).Nodup) :
    ∀ e ∈ G.edges, ∀ e' ∈ G.edges, e.id = e'.id → e = e' := by
  rw [List.map_append] at hndE
  have h := (List.nodup_append.mp hndE).1
  intro e he e' he' hid
  exact List.inj_on_of_nodup_map h he he' hid

/-- Claim C2 (amended): when the fully-internal edges outside the
collapsed subtree's interior all sit in the root's edge-list (and ids are
unique), collapse removes exactly them into the hidden store under the
node id, rewrites each one-endpoint edge in place recording the original
endpoint in the record's edge map, and leaves zero-endpoint edges
untouched; edge-lists strictly inside the subtree are detached with the
saved children and are not walked. -/
theorem collapse_partition (G : Graph) (st : RState) (nid : String)
    (c0 : Forest) (es0 : List Edge) (col0 : Bool)
    (hfind : G.nodes.find? nid = some (c0, es0, col0))
    (hne : c0 ≠ Forest.nil)
    (hndN : G.nodes.allIds.Nodup)
    (hndE : ((G.edges ++ G.nodes.allEdges).map Edge.id).Nodup)
    (hclean : G.nodes.cleanWalk c0.allIds nid = true) :
    collapse G st nid =
      (⟨G.nodes.cshape c0.allIds nid, rwKept c0.allIds nid G.edges⟩,
       ⟨setA nid ⟨some c0, entriesOf c0.allIds nid G.edges ++ G.nodes.centries c0.allIds nid⟩
          st.tracker,
        if (G.edges.filter (bothIn c0.allIds)).isEmpty then st.hidden
        else setA nid (G.edges.filter (bothIn c0.allIds)) st.hidden⟩) ∧
    (∀ e ∈ G.edges, bothIn c0.allIds e = true →
      e ∈ (lookupA nid (collapse G st nid).2.hidden).getD [] ∧
      e ∉ (collapse G st nid).1.edges) ∧
    (∀ e ∈ G.edges, bothIn c0.allIds e = false →
      (rewriteEdge c0.allIds nid e).1 ∈ (collapse G st nid).1.edges ∧
      (origEmpty (rewriteEdge c0.allIds nid e).2 = false →
        ∃ entry, lookupA nid (collapse G st nid).2.tracker = some entry ∧
          lookupA e.id entry.edgeMap = some (rewriteEdge c0.allIds nid e).2) ∧
      (c0.allIds.contains e.source = false → c0.allIds.contains e.target = false →
        (rewriteEdge c0.allIds nid e).1 = e)) := by
  have hspec := collapse_spec G st nid c0 es0 col0 hfind hne hndN hndE hclean
  refine ⟨hspec, ?_, ?_⟩
  · intro e he hb
    have heRH : e ∈ G.edges.filter (bothIn c0.allIds) := List.mem_filter.mpr ⟨he, hb⟩
    have hne2 : (G.edges.filter (bothIn c0.allIds)).isEmpty = false :=
      isEmpty_false_of_ne_nil (fun hc => by rw [hc] at heRH; cases heRH)
    constructor
    · simp only [hspec, hne2, Bool.false_eq_true, if_false]
      rw [lookupA_setA, if_pos rfl]
      exact heRH
    · simp only [hspec]
      intro hmem
      rw [rwKept] at hmem
      obtain ⟨e', he', heq⟩ := List.mem_map.mp hmem
      have hid : e.id = e'.id := by rw [← heq]; rfl
      have he'' := List.mem_of_mem_filter he'
      have hEq : e = e' := edges_inj G hndE e he e' he'' hid
      have hbe' := (List.mem_filter.mp he').2
      rw [← hEq] at hbe'
      rw [hb] at hbe'
      exact Bool.noConfusion hbe'
  · intro e he hb
    refine ⟨?_, ?_, ?_⟩
    · simp only [hspec]
      rw [rwKept]
      exact List.mem_map_of_mem _ (List.mem_filter.mpr ⟨he, by rw [hb]; rfl⟩)
    · intro ho
      refine ⟨⟨some c0, entriesOf c0.allIds nid G.edges ++ G.nodes.centries c0.allIds nid⟩, ?_, ?_⟩
      · simp only [hspec]
        rw [lookupA_setA, if_pos rfl]
      · have hlk := em_lookup_touched G.edges G.nodes c0.allIds nid hndE e
          (List.mem_append.mpr (Or.inl he)) hb
        rw [if_neg (by rw [ho]; exact Bool.noConfusion)] at hlk
        exact hlk
    · intro hs ht
      have hs' : e.source ∉ c0.allIds := (contains_false_iff _ _).mp hs
      have ht' : e.target ∉ c0.allIds := (contains_false_iff _ _).mp ht
      simp [rewriteEdge, hs', ht']

/- ### Claim C1 assembly -/

theorem restore_step (nid : String) (c : Forest) (es re h : List Edge) :
    restoreWalk nid (Forest.cons nid c (es : List Edge) false Forest.nil) ((re : List Edge), [(nid, h)]) = (re ++ h, []) := by
  rw [restoreWalk]
  have hlk : lookupA nid [(nid, h)] = some h := by rw [lookupA, if_pos rfl]
  have her : eraseA nid [(nid, h)] = [] := by simp [eraseA]
  simp only [hlk, Option.isSome_some, Bool.not_false, Bool.true_and, if_true, her,
    Option.getD_some]
  rw [restoreWalk_empty]
  rfl

/-- Claim C1 (amended): when every fully-internal edge outside the
collapsed subtree's interior sits in the root's top-level edge-list (and
ids are unique and non-empty), expanding immediately after collapsing a
node with children restores the node tree exactly and the root edge-list
up to order — the hidden internal edges are appended at its end — and
empties the collapse bookkeeping. -/
theorem collapse_expand_roundtrip (G : Graph) (nid : String)
    (c0 : Forest) (es0 : List Edge)
    (hfind : G.nodes.find? nid = some (c0, es0, false))
    (hne : c0 ≠ Forest.nil)
    (hndN : G.nodes.allIds.Nodup)
    (hndE : ((G.edges ++ G.nodes.allEdges).map Edge.id).Nodup)
    (hstr : "" ∉ G.nodes.allIds)
    (hclean : G.nodes.cleanWalk c0.allIds nid = true) :
    expand (collapse G ⟨[], []⟩ nid).1 (collapse G ⟨[], []⟩ nid).2 nid =
      some (⟨G.nodes,
             G.edges.filter (fun e => !bothIn c0.allIds e) ++ G.edges.filter (bothIn c0.allIds)⟩,
            ⟨[], []⟩) ∧
    List.Perm (G.edges.filter (fun e => !bothIn c0.allIds e) ++ G.edges.filter (bothIn c0.allIds))
      G.edges := by
  have hspec := collapse_spec G ⟨[], []⟩ nid c0 es0 false hfind hne hndN hndE hclean
  have hstr' : ∀ s : String, c0.allIds.contains s = true → s ≠ "" := by
    intro s hc heq
    refine hstr ?_
    rw [← heq]
    exact (find_sub_ids hfind).subset
      (List.mem_cons_of_mem nid ((contains_true_iff _ _).mp hc))
  have hrev : ∀ e ∈ G.edges ++ G.nodes.wEdges nid, bothIn c0.allIds e = false →
      revertEdge (entriesOf c0.allIds nid G.edges ++ G.nodes.centries c0.allIds nid)
        (rewriteEdge c0.allIds nid e).1 = e := by
    intro e hmem hb
    exact revertEdge_rw (em_lookup_touched G.edges G.nodes c0.allIds nid hndE e hmem hb)
      (hstr' e.source) (hstr' e.target)
  have hKE : (rwKept c0.allIds nid G.edges).map
      (revertEdge (entriesOf c0.allIds nid G.edges ++ G.nodes.centries c0.allIds nid)) =
      G.edges.filter (fun e => !bothIn c0.allIds e) := by
    rw [rwKept, List.map_map]
    refine map_id_of_mem _ _ ?_
    intro e he
    have hb := (List.mem_filter.mp he).2
    have hb' : bothIn c0.allIds e = false := by
      cases hbb : bothIn c0.allIds e with
      | false => rfl
      | true => rw [hbb] at hb; exact Bool.noConfusion hb
    exact hrev e (List.mem_append.mpr (Or.inl (List.mem_of_mem_filter he))) hb'
  have hRH : (G.edges.filter (bothIn c0.allIds)).map
      (revertEdge (entriesOf c0.allIds nid G.edges ++ G.nodes.centries c0.allIds nid)) =
      G.edges.filter (bothIn c0.allIds) := by
    refine map_id_of_mem _ _ ?_
    intro e he
    refine revertEdge_of_lookup_none
      (em_lookup_none_internal G.edges G.nodes c0.allIds nid hndE e
        (List.mem_append.mpr (Or.inl (List.mem_of_mem_filter he)))
        (List.mem_filter.mp he).2)
  have hforest : revertWalk (entriesOf c0.allIds nid G.edges ++ G.nodes.centries c0.allIds nid)
      (G.nodes.mexp c0.allIds nid) = G.nodes := by
    refine revertWalk_mexp hclean (walkColOK_of_find nid G.nodes hndN c0 es0 hfind) ?_ ?_
    · intro e he
      exact hrev e (List.mem_append.mpr (Or.inr he)) (cleanWalk_wEdges hclean e he)
    · intro e he
      exact revertEdge_of_lookup_none
        (em_lookup_none_hidden G.edges G.nodes c0.allIds nid hndE e he)
  have hperm : List.Perm
      (G.edges.filter (fun e => !bothIn c0.allIds e) ++ G.edges.filter (bothIn c0.allIds))
      G.edges :=
    List.perm_append_comm.trans (List.filter_append_perm (bothIn c0.allIds) G.edges)
  refine ⟨?_, hperm⟩
  rw [hspec]
  have hlk1 : lookupA nid (setA nid
      (⟨some c0, entriesOf c0.allIds nid G.edges ++ G.nodes.centries c0.allIds nid⟩ : CollapseRec)
      ([] : List (String × CollapseRec))) =
      some ⟨some c0, entriesOf c0.allIds nid G.edges ++ G.nodes.centries c0.allIds nid⟩ := by
    rw [lookupA_setA, if_pos rfl]
  rw [expand]
  simp only [hlk1, Option.getD_some]
  rw [updateFirst_cshape c0.allIds nid G.nodes hndN c0 es0 false hfind]
  simp only []
  rw [mexp_find? c0.allIds nid G.nodes c0 es0 false hfind]
  have her : eraseA nid (setA nid
      (⟨some c0, entriesOf c0.allIds nid G.edges ++ G.nodes.centries c0.allIds nid⟩ : CollapseRec)
      ([] : List (String × CollapseRec))) = [] := by
    simp [setA, eraseA]
  by_cases hRHe : (G.edges.filter (bothIn c0.allIds)).isEmpty = true
  · have hRHnil : G.edges.filter (bothIn c0.allIds) = [] := List.isEmpty_iff.mp hRHe
    simp only [hRHe, if_true]
    rw [restoreWalk_empty]
    simp only [hforest, her]
    rw [hKE]
    rw [hRHnil, List.append_nil]
  · simp only [hRHe, Bool.false_eq_true, if_false]
    have hsetA : setA nid (G.edges.filter (bothIn c0.allIds)) ([] : List (String × List Edge)) =
        [(nid, G.edges.filter (bothIn c0.allIds))] := rfl
    rw [hsetA, restore_step]
    simp only [hforest, her]
    rw [List.map_append, hKE, hRH]

/- ### Claim C1: counterexample and witness -/

/-- Claim C1 counterexample: in `cxRoundGraph` the internal edge `e1` is
held in `P`'s own edge-list; collapsing and immediately expanding `P`
restores the node tree but moves `e1` into the root's top-level edge-list,
so the graph is not restored exactly. -/
theorem roundtrip_counterexample :
    (expand (collapse cxRoundGraph ⟨[], []⟩ "P").1 (collapse cxRoundGraph ⟨[], []⟩ "P").2
        "P").map (fun p => p.1.edges) = some [⟨"e1", "X", "Y"⟩] ∧
    cxRoundGraph.edges = [] ∧
    ((cxRoundGraph.nodes.find? "P").map (fun x => x.2.1)) = some [⟨"e1", "X", "Y"⟩] ∧
    (expand (collapse cxRoundGraph ⟨[], []⟩ "P").1 (collapse cxRoundGraph ⟨[], []⟩ "P").2
        "P").map (fun p => p.1) ≠ some cxRoundGraph := by
  refine ⟨by decide, rfl, by decide, by decide⟩

/-- Witness for `collapse_expand_roundtrip` at the spec's section-8
example graph. -/
theorem collapse_expand_roundtrip_witness :
    expand (collapse wRoundGraph ⟨[], []⟩ "P").1 (collapse wRoundGraph ⟨[], []⟩ "P").2 "P" =
      some (⟨wRoundGraph.nodes,
             wRoundGraph.edges.filter (fun e => !bothIn wRoundChildren.allIds e) ++
               wRoundGraph.edges.filter (bothIn wRoundChildren.allIds)⟩,
            ⟨[], []⟩) ∧
    List.Perm (wRoundGraph.edges.filter (fun e => !bothIn wRoundChildren.allIds e) ++
        wRoundGraph.edges.filter (bothIn wRoundChildren.allIds))
      wRoundGraph.edges :=
  collapse_expand_roundtrip wRoundGraph "P" wRoundChildren []
    (by decide) (by decide) (by decide) (by decide) (by decide) (by decide)

/- ### Claim C2: counterexample and witness -/

/-- Claim C2 counterexample: in `cxCollapseGraph` the internal edges `e1`
(root list) and `e2` (in `P`'s own list) are both removed when `P` is
collapsed, but the hidden store keeps only the last removed batch: `e1` is
gone from every live edge-list and is not in the hidden store either. -/
theorem collapse_partition_counterexample :
    lookupA "P" (collapse cxCollapseGraph ⟨[], []⟩ "P").2.hidden = some [⟨"e2", "Y", "X"⟩] ∧
    (⟨"e1", "X", "Y"⟩ : Edge) ∈ cxCollapseGraph.edges ∧
    bothIn ["X", "Y"] ⟨"e1", "X", "Y"⟩ = true ∧
    (⟨"e1", "X", "Y"⟩ : Edge) ∉ (collapse cxCollapseGraph ⟨[], []⟩ "P").1.edges ∧
    (⟨"e1", "X", "Y"⟩ : Edge) ∉ (collapse cxCollapseGraph ⟨[], []⟩ "P").1.nodes.allEdges ∧
    (⟨"e1", "X", "Y"⟩ : Edge) ∉
      (lookupA "P" (collapse cxCollapseGraph ⟨[], []⟩ "P").2.hidden).getD [] := by
  refine ⟨by decide, by decide, by decide, by decide, by decide, by decide⟩

/-- Witness for `collapse_partition` at `wCollapseGraph`, which has
an internal, two one-endpoint and one zero-endpoint top-level edge. -/
theorem collapse_partition_witness :
    collapse wCollapseGraph ⟨[], []⟩ "P" =
      (⟨wCollapseGraph.nodes.cshape wCollapseChildren.allIds "P",
        rwKept wCollapseChildren.allIds "P" wCollapseGraph.edges⟩,
       ⟨setA "P" ⟨some wCollapseChildren,
          entriesOf wCollapseChildren.allIds "P" wCollapseGraph.edges ++
            wCollapseGraph.nodes.centries wCollapseChildren.allIds "P"⟩ [],
        if (wCollapseGraph.edges.filter (bothIn wCollapseChildren.allIds)).isEmpty then []
        else setA "P" (wCollapseGraph.edges.filter (bothIn wCollapseChildren.allIds)) []⟩) ∧
    (∀ e ∈ wCollapseGraph.edges, bothIn wCollapseChildren.allIds e = true →
      e ∈ (lookupA "P" (collapse wCollapseGraph ⟨[], []⟩ "P").2.hidden).getD [] ∧
      e ∉ (collapse wCollapseGraph ⟨[], []⟩ "P").1.edges) ∧
    (∀ e ∈ wCollapseGraph.edges, bothIn wCollapseChildren.allIds e = false →
      (rewriteEdge wCollapseChildren.allIds "P" e).1 ∈ (collapse wCollapseGraph ⟨[], []⟩ "P").1.edges ∧
      (origEmpty (rewriteEdge wCollapseChildren.allIds "P" e).2 = false →
        ∃ entry, lookupA "P" (collapse wCollapseGraph ⟨[], []⟩ "P").2.tracker = some entry ∧
          lookupA e.id entry.edgeMap = some (rewriteEdge wCollapseChildren.allIds "P" e).2) ∧
      (wCollapseChildren.allIds.contains e.source = false →
        wCollapseChildren.allIds.contains e.target = false →
        (rewriteEdge wCollapseChildren.allIds "P" e).1 = e)) :=
  collapse_partition wCollapseGraph ⟨[], []⟩ "P" wCollapseChildren [] false
    (by decide) (by decide) (by decide) (by decide) (by decide)
